import Mathlib

/-
A shallow embedding of the SCCP (sparse conditional constant propagation)
pass of cmd/compile/internal/ssa (sccp.go), together with theorems about
its lattice, its fixed-point solver and its rewrite step.

Values and blocks of the SSA function are identified by natural numbers.
Pointer identity of *Value nodes in the Go source is modelled as equality
of these identifiers; `nil` pointers are modelled by `Option`.
-/

set_option maxHeartbeats 1000000

/-- SSA opcodes: exactly the opcodes sccp.go dispatches on, plus `Other`
for every opcode outside those case lists (the `default` branches). -/
inductive Op where
  | Const64 | Const32 | Const16 | Const8 | ConstBool | Const32F | Const64F
  | Copy | Phi
  | Add64 | Add32 | Add16 | Add8 | Add32F | Add64F
  | Sub64 | Sub32 | Sub16 | Sub8 | Sub32F | Sub64F
  | Mul64 | Mul32 | Mul16 | Mul8 | Mul32F | Mul64F
  | Div32F | Div64F
  | Div8 | Div16 | Div32 | Div64
  | Div8u | Div16u | Div32u | Div64u
  | Mod8 | Mod16 | Mod32 | Mod64
  | Mod8u | Mod16u | Mod32u | Mod64u
  | Eq64 | Eq32 | Eq16 | Eq8 | Eq32F | Eq64F
  | Less64 | Less32 | Less16 | Less8
  | Less64U | Less32U | Less16U | Less8U
  | Less32F | Less64F
  | Leq64 | Leq32 | Leq16 | Leq8
  | Leq64U | Leq32U | Leq16U | Leq8U
  | Leq32F | Leq64F
  | Other
deriving DecidableEq, Repr, Fintype

/-- The three lattice levels (`top`, `constant`, `bottom` in sccp.go). -/
inductive Ltag where
  | top | constant | bottom
deriving DecidableEq, Repr

/-- `type lattice struct { tag int8; val *Value }`.  The `*Value` pointer is
an optional value identifier. -/
structure lattice where
  tag : Ltag
  val : Option Nat
deriving DecidableEq, Repr

/-- The optimistic initial cell `lattice{top, nil}`. -/
def latTop : lattice := ⟨.top, none⟩

/-- The worst cell `lattice{bottom, nil}`. -/
def latBot : lattice := ⟨.bottom, none⟩

/-- `isConst`: is the opcode a constant-literal opcode? -/
def isConst (op : Op) : Bool :=
  match op with
  | .Const64 | .Const32 | .Const16 | .Const8
  | .ConstBool | .Const32F | .Const64F => true
  | _ => false

/-- The opcode list of `isDivByZero`: integer and floating division and
modulo opcodes. -/
def isDivModOp (op : Op) : Bool :=
  match op with
  | .Div32F | .Div64F
  | .Div8 | .Div16 | .Div32 | .Div64
  | .Mod8 | .Mod16 | .Mod32 | .Mod64
  | .Div8u | .Div16u | .Div32u | .Div64u
  | .Mod8u | .Mod16u | .Mod32u | .Mod64u => true
  | _ => false

/-- The loop body of `meet`, with the running accumulator `lt`.
`lt` starts as `lattice{top, nil}`; a `bottom` element or a second,
different constant pointer returns `lattice{bottom, nil}` early. -/
def meetGo : lattice → List lattice → lattice
  | lt, [] => lt
  | lt, t :: rest =>
    match t.tag with
    | .bottom => latBot
    | .constant =>
      match lt.tag with
      | .top => meetGo ⟨.constant, t.val⟩ rest
      | _ => if lt.val ≠ t.val then latBot else meetGo lt rest
    | .top => meetGo lt rest

/-- `meet(arr []lattice) lattice` from sccp.go. -/
def meet (arr : List lattice) : lattice := meetGo latTop arr

/-- Some cell of the list has tag `bottom`. -/
def hasBottom (l : List lattice) : Prop := ∃ t ∈ l, t.tag = .bottom

/-- Two cells of the list are constants with different value pointers. -/
def constClash (l : List lattice) : Prop :=
  ∃ t ∈ l, ∃ u ∈ l, t.tag = .constant ∧ u.tag = .constant ∧ t.val ≠ u.val

/-- Every cell of the list has tag `top`. -/
def allTop (l : List lattice) : Prop := ∀ t ∈ l, t.tag = .top

instance (l : List lattice) : Decidable (hasBottom l) :=
  inferInstanceAs (Decidable (∃ t ∈ l, t.tag = .bottom))

instance (l : List lattice) : Decidable (constClash l) :=
  inferInstanceAs (Decidable
    (∃ t ∈ l, ∃ u ∈ l, t.tag = .constant ∧ u.tag = .constant ∧ t.val ≠ u.val))

instance (l : List lattice) : Decidable (allTop l) :=
  inferInstanceAs (Decidable (∀ t ∈ l, t.tag = .top))

theorem meetGo_const (v : Option Nat) (l : List lattice) :
    meetGo ⟨.constant, v⟩ l =
      if (∀ t ∈ l, t.tag ≠ .bottom ∧ (t.tag = .constant → t.val = v)) then
        ⟨.constant, v⟩
      else latBot := by
  induction l with
  | nil => simp [meetGo]
  | cons t rest ih =>
    match ht : t.tag with
    | .bottom =>
      simp only [meetGo, ht]
      rw [if_neg]
      intro h
      exact (h t (by simp) |>.1) ht
    | .top =>
      simp only [meetGo, ht, ih]
      congr 1
      simp only [eq_iff_iff, List.forall_mem_cons]
      constructor
      · intro h; exact ⟨by simp [ht], h⟩
      · intro h; exact h.2
    | .constant =>
      simp only [meetGo, ht]
      by_cases hv : t.val = v
      · rw [if_neg (by simp [hv]), ih]
        congr 1
        simp only [eq_iff_iff, List.forall_mem_cons]
        constructor
        · intro h; exact ⟨by simp [ht, hv], h⟩
        · intro h; exact h.2
      · rw [if_pos (by simp [Ne.symm hv])]
        rw [if_neg]
        intro h
        exact hv ((h t (by simp)).2 ht)

theorem meet_nil : meet [] = latTop := rfl

theorem meet_cons_top (w : Option Nat) (l : List lattice) :
    meet (⟨.top, w⟩ :: l) = meet l := rfl

theorem meet_cons_bottom (w : Option Nat) (l : List lattice) :
    meet (⟨.bottom, w⟩ :: l) = latBot := rfl

theorem meet_cons_const (w : Option Nat) (l : List lattice) :
    meet (⟨.constant, w⟩ :: l) = meetGo ⟨.constant, w⟩ l := rfl

/-- Shape: `meet` returns `latTop`, `latBot`, or a constant cell. -/
theorem meet_shape (l : List lattice) :
    meet l = latTop ∨ meet l = latBot ∨ ∃ v, meet l = ⟨.constant, v⟩ := by
  induction l with
  | nil => left; rfl
  | cons t rest ih =>
    rcases t with ⟨tag, w⟩
    match tag with
    | .top => simpa [meet_cons_top] using ih
    | .bottom => right; left; rfl
    | .constant =>
      rw [meet_cons_const, meetGo_const]
      split
      · right; right; exact ⟨w, rfl⟩
      · right; left; rfl

theorem meet_eq_top_iff (l : List lattice) : meet l = latTop ↔ allTop l := by
  induction l with
  | nil => simp [meet_nil, allTop]
  | cons t rest ih =>
    rcases t with ⟨tag, w⟩
    match tag with
    | .top =>
      rw [meet_cons_top, ih]
      unfold allTop
      constructor
      · intro h u hu
        rcases List.mem_cons.mp hu with rfl | hu'
        · rfl
        · exact h u hu'
      · intro h u hu; exact h u (by simp [hu])
    | .bottom =>
      rw [meet_cons_bottom]
      unfold allTop latBot latTop
      constructor
      · intro h; cases h
      · intro h; exact absurd (h ⟨.bottom, w⟩ (by simp)) (by simp)
    | .constant =>
      rw [meet_cons_const, meetGo_const]
      constructor
      · intro h
        split at h <;> simp [latBot, latTop] at h
      · intro h
        exact absurd (h ⟨.constant, w⟩ (by simp)) (by simp [allTop] at h ⊢)

theorem meet_eq_const_iff (l : List lattice) (v : Option Nat) :
    meet l = ⟨.constant, v⟩ ↔
      ¬ hasBottom l ∧ (∃ t ∈ l, t.tag = .constant) ∧
        (∀ t ∈ l, t.tag = .constant → t.val = v) := by
  induction l with
  | nil => simp [meet_nil, latTop]
  | cons t rest ih =>
    rcases t with ⟨tag, w⟩
    match tag with
    | .top =>
      rw [meet_cons_top, ih]
      unfold hasBottom
      simp only [List.mem_cons]
      constructor
      · rintro ⟨h1, ⟨u, hu, hc⟩, h3⟩
        refine ⟨?_, ⟨u, Or.inr hu, hc⟩, ?_⟩
        · rintro ⟨x, hx | hx, hb⟩
          · cases hx; cases hb
          · exact h1 ⟨x, hx, hb⟩
        · rintro x (hx | hx) hc'
          · cases hx; cases hc'
          · exact h3 x hx hc'
      · rintro ⟨h1, ⟨u, hu, hc⟩, h3⟩
        rcases hu with rfl | hu'
        · cases hc
        · exact ⟨fun ⟨x, hx, hb⟩ => h1 ⟨x, Or.inr hx, hb⟩, ⟨u, hu', hc⟩,
            fun x hx hc' => h3 x (Or.inr hx) hc'⟩
    | .bottom =>
      rw [meet_cons_bottom]
      unfold hasBottom latBot
      simp only [List.mem_cons]
      constructor
      · intro h; cases h
      · rintro ⟨h1, _, _⟩
        exact absurd ⟨⟨.bottom, w⟩, Or.inl rfl, rfl⟩ h1
    | .constant =>
      rw [meet_cons_const, meetGo_const]
      unfold hasBottom latBot
      simp only [List.mem_cons]
      constructor
      · intro h
        split at h
        · rename_i hall
          cases h
          refine ⟨?_, ⟨⟨.constant, v⟩, Or.inl rfl, rfl⟩, ?_⟩
          · rintro ⟨x, hx | hx, hb⟩
            · cases hx; cases hb
            · exact (hall x hx).1 hb
          · rintro x (hx | hx) hc'
            · cases hx; rfl
            · exact (hall x hx).2 hc'
        · cases h
      · rintro ⟨h1, _, h3⟩
        have hwv : w = v := h3 ⟨.constant, w⟩ (Or.inl rfl) rfl
        subst hwv
        rw [if_pos]
        intro x hx
        constructor
        · intro hb; exact h1 ⟨x, Or.inr hx, hb⟩
        · intro hc'; exact h3 x (Or.inr hx) hc'

theorem meet_eq_bottom_iff (l : List lattice) :
    meet l = latBot ↔ hasBottom l ∨ constClash l := by
  constructor
  · intro h
    by_contra hcon
    push_neg at hcon
    rcases meet_shape l with hs | hs | ⟨v, hs⟩
    · rw [h] at hs; cases hs
    · -- derive a contradiction: no bottom and no clash, yet meet = bottom
      -- analyse via the characterizations
      rcases Decidable.em (allTop l) with hat | hat
      · rw [(meet_eq_top_iff l).mpr hat] at h; cases h
      · -- there is a non-top cell; no bottoms, so it is a constant; no clash,
        -- so all constants share its val
        unfold allTop at hat
        push_neg at hat
        rcases hat with ⟨u, hu, hut⟩
        have huc : u.tag = .constant := by
          rcases hu' : u.tag with _ | _ | _
          · exact absurd hu' hut
          · rfl
          · exact absurd ⟨u, hu, hu'⟩ hcon.1
        have : meet l = ⟨.constant, u.val⟩ := by
          rw [meet_eq_const_iff]
          refine ⟨hcon.1, ⟨u, hu, huc⟩, ?_⟩
          intro x hx hxc
          by_contra hne
          exact hcon.2 ⟨x, hx, u, hu, hxc, huc, hne⟩
        rw [this] at h; cases h
    · rw [h] at hs; cases hs
  · intro h
    rcases meet_shape l with hs | hs | ⟨v, hs⟩
    · rw [meet_eq_top_iff] at hs
      exfalso
      rcases h with ⟨t, ht, hb⟩ | ⟨t, ht, _, _, hc, _, _⟩
      · rw [hs t ht] at hb; cases hb
      · rw [hs t ht] at hc; cases hc
    · exact hs
    · rw [meet_eq_const_iff] at hs
      exfalso
      rcases h with hb | ⟨t, ht, u, hu, htc, huc, hne⟩
      · exact hs.1 hb
      · exact hne ((hs.2.2 t ht htc).trans (hs.2.2 u hu huc).symm)

/-- `meet` only depends on which cells occur in the list. -/
theorem meet_congr_mem (l l' : List lattice) (h : ∀ x, x ∈ l ↔ x ∈ l') :
    meet l = meet l' := by
  have hb : hasBottom l ↔ hasBottom l' := by
    unfold hasBottom
    constructor <;> rintro ⟨t, ht, hbt⟩
    · exact ⟨t, (h t).mp ht, hbt⟩
    · exact ⟨t, (h t).mpr ht, hbt⟩
  have hat : allTop l ↔ allTop l' := by
    unfold allTop
    constructor <;> intro ha t ht
    · exact ha t ((h t).mpr ht)
    · exact ha t ((h t).mp ht)
  have hcv : ∀ v, ((∃ t ∈ l, t.tag = .constant) ∧
      (∀ t ∈ l, t.tag = .constant → t.val = v)) ↔
      ((∃ t ∈ l', t.tag = .constant) ∧
      (∀ t ∈ l', t.tag = .constant → t.val = v)) := by
    intro v
    constructor <;> rintro ⟨⟨t, ht, hct⟩, hall⟩
    · exact ⟨⟨t, (h t).mp ht, hct⟩, fun u hu hcu => hall u ((h u).mpr hu) hcu⟩
    · exact ⟨⟨t, (h t).mpr ht, hct⟩, fun u hu hcu => hall u ((h u).mp hu) hcu⟩
  have hcl : constClash l ↔ constClash l' := by
    unfold constClash
    constructor <;> rintro ⟨t, ht, u, hu, hp⟩
    · exact ⟨t, (h t).mp ht, u, (h u).mp hu, hp⟩
    · exact ⟨t, (h t).mpr ht, u, (h u).mpr hu, hp⟩
  rcases meet_shape l with hs | hs | ⟨v, hs⟩
  · rw [hs]
    symm
    rw [meet_eq_top_iff]
    exact hat.mp ((meet_eq_top_iff l).mp hs)
  · rw [hs]
    symm
    rw [meet_eq_bottom_iff]
    rcases (meet_eq_bottom_iff l).mp hs with hbl | hcll
    · exact Or.inl (hb.mp hbl)
    · exact Or.inr (hcl.mp hcll)
  · rw [hs]
    symm
    rw [meet_eq_const_iff]
    rcases (meet_eq_const_iff l v).mp hs with ⟨h1, h2, h3⟩
    exact ⟨fun hbl => h1 (hb.mpr hbl), ((hcv v).mp ⟨h2, h3⟩).1, ((hcv v).mp ⟨h2, h3⟩).2⟩

/-- A cell with tag `top` anywhere in the list never changes the result. -/
theorem meet_insert_top (l1 l2 : List lattice) (t : lattice) (ht : t.tag = .top) :
    meet (l1 ++ t :: l2) = meet (l1 ++ l2) := by
  have hmem : ∀ x, x ∈ l1 ++ l2 → x ∈ l1 ++ t :: l2 := by
    intro x hx
    rcases List.mem_append.mp hx with hx | hx
    · exact List.mem_append.mpr (Or.inl hx)
    · exact List.mem_append.mpr (Or.inr (List.mem_cons_of_mem _ hx))
  rcases meet_shape (l1 ++ l2) with hs | hs | ⟨v, hs⟩
  · rw [hs]
    rw [meet_eq_top_iff] at hs ⊢
    intro x hx
    rcases List.mem_append.mp hx with hx | hx
    · exact hs x (List.mem_append.mpr (Or.inl hx))
    · rcases List.mem_cons.mp hx with rfl | hx'
      · exact ht
      · exact hs x (List.mem_append.mpr (Or.inr hx'))
  · rw [hs]
    rw [meet_eq_bottom_iff] at hs ⊢
    rcases hs with ⟨x, hx, hbx⟩ | ⟨x, hx, u, hu, hp⟩
    · exact Or.inl ⟨x, hmem x hx, hbx⟩
    · exact Or.inr ⟨x, hmem x hx, u, hmem u hu, hp⟩
  · rw [hs]
    rw [meet_eq_const_iff] at hs ⊢
    rcases hs with ⟨h1, ⟨x, hx, hcx⟩, h3⟩
    refine ⟨?_, ⟨x, hmem x hx, hcx⟩, ?_⟩
    · rintro ⟨u, hu, hbu⟩
      apply h1
      rcases List.mem_append.mp hu with hu | hu
      · exact ⟨u, List.mem_append.mpr (Or.inl hu), hbu⟩
      · rcases List.mem_cons.mp hu with rfl | hu'
        · rw [ht] at hbu; cases hbu
        · exact ⟨u, List.mem_append.mpr (Or.inr hu'), hbu⟩
    · intro u hu hcu
      rcases List.mem_append.mp hu with hu | hu
      · exact h3 u (List.mem_append.mpr (Or.inl hu)) hcu
      · rcases List.mem_cons.mp hu with rfl | hu'
        · rw [ht] at hcu; cases hcu
        · exact h3 u (List.mem_append.mpr (Or.inr hu')) hcu

/-- The binary meet induced by `meet` on two-element lists. -/
def meet2 (a b : lattice) : lattice := meet [a, b]

theorem meet2_comm (a b : lattice) : meet2 a b = meet2 b a := by
  apply meet_congr_mem
  intro x
  constructor <;> intro hx <;> simpa [or_comm] using hx

theorem meet2_idem (a : lattice) : meet2 a a = meet [a] := by
  rcases a with ⟨tag, w⟩
  match tag with
  | .top => rfl
  | .bottom => rfl
  | .constant => simp [meet2, meet, meetGo, latTop]

/-- A one-element meet returns the element itself whenever the element is a
cell the solver actually builds (constants carry a pointer, `top` and
`bottom` cells carry `nil`). -/
theorem meet_singleton (a : lattice) (h : a.tag = .constant ∨ a.val = none) :
    meet [a] = a := by
  rcases a with ⟨tag, w⟩
  match tag with
  | .constant => rfl
  | .top => simp at h; simp [meet, meetGo, latTop, h]
  | .bottom => simp at h; simp [meet, meetGo, latBot, h]

theorem meet2_assoc (a b c : lattice) :
    meet2 (meet2 a b) c = meet2 a (meet2 b c) := by
  rcases a with ⟨ta, va⟩
  rcases b with ⟨tb, vb⟩
  rcases c with ⟨tc, vc⟩
  cases ta <;> cases tb <;> cases tc <;>
    simp only [meet2, meet, meetGo, latTop, latBot] <;>
    split_ifs <;> simp_all [meetGo, latBot]

/-- C4: `meet` over lists of lattice cells: the empty meet is Top; Top cells
are an identity; any Bottom cell makes the result Bottom; two Const cells
combine to that Const exactly when their stored value pointers are equal and
to Bottom otherwise; the result is invariant under permutation and under
duplication of the input list; and the induced binary meet is commutative,
associative and idempotent. -/
theorem C4_meet_algebra :
    meet [] = latTop ∧
    (∀ (l1 l2 : List lattice) (t : lattice), t.tag = .top →
      meet (l1 ++ t :: l2) = meet (l1 ++ l2)) ∧
    (∀ (l : List lattice) (t : lattice), t ∈ l → t.tag = .bottom →
      meet l = latBot) ∧
    (∀ a b : Option Nat, meet [⟨.constant, a⟩, ⟨.constant, b⟩] =
      if a = b then ⟨.constant, a⟩ else latBot) ∧
    (∀ l l' : List lattice, l.Perm l' → meet l = meet l') ∧
    (∀ (a : lattice) (l : List lattice), meet (a :: a :: l) = meet (a :: l)) ∧
    (∀ a b, meet2 a b = meet2 b a) ∧
    (∀ a b c, meet2 (meet2 a b) c = meet2 a (meet2 b c)) ∧
    (∀ a, meet2 a a = meet [a]) := by
  refine ⟨rfl, meet_insert_top, ?_, ?_, ?_, ?_, meet2_comm, meet2_assoc, meet2_idem⟩
  · intro l t ht hb
    exact (meet_eq_bottom_iff l).mpr (Or.inl ⟨t, ht, hb⟩)
  · intro a b
    by_cases h : a = b <;> simp [meet, meetGo, latTop, latBot, h]
  · intro l l' hp
    exact meet_congr_mem l l' (fun x => hp.mem_iff)
  · intro a l
    apply meet_congr_mem
    intro x
    simp only [List.mem_cons]
    tauto

/-- Witness for C4 at concrete inputs. -/
theorem C4_meet_algebra_witness :
    meet [⟨.constant, some 1⟩, ⟨.top, none⟩] =
      meet [⟨.top, none⟩, ⟨.constant, some 1⟩] ∧
    meet [⟨.constant, some 1⟩, ⟨.bottom, none⟩] = latBot :=
  ⟨C4_meet_algebra.2.2.2.2.1 _ _ (by decide),
   C4_meet_algebra.2.2.1 _ ⟨.bottom, none⟩ (by simp) rfl⟩

/-- An SSA value node (`*Value`): opcode, argument value ids, owning block,
`AuxInt` payload, type tag, and the `Uses` counter. -/
structure Val where
  op : Op
  args : List Nat
  block : Nat
  auxInt : Int
  typ : Nat
  usesCnt : Int
deriving DecidableEq, Repr

/-- Block kinds dispatched on by sccp.go. -/
inductive BKind where
  | Plain | If | Defer | First | Exit | Ret | RetJmp | Invalid | JumpTable
deriving DecidableEq, Repr

/-- A basic block: kind, ordered predecessor and successor block ids, the
ordered list of values of the block, control value ids, and the
branch-likelihood metadata (`Likely`, 0 = `BranchUnknown`). -/
structure Blk where
  kind : BKind
  preds : List Nat
  succs : List Nat
  values : List Nat
  ctrls : List Nat
  likely : Int
deriving DecidableEq, Repr

/-- The SSA function handed to the pass.  `freshBase` is the first value id
free for nodes allocated by `f.newValue` (probe nodes). -/
structure Fn where
  blocks : List Nat
  blks : Nat → Blk
  vals : Nat → Val
  entry : Nat
  freshBase : Nat

/-- Append `v` to the list stored at key `k`. -/
def appendAt (m : Nat → List Nat) (k v : Nat) : Nat → List Nat :=
  fun x => if x = k then m k ++ [v] else m x

/-- The `defUse` map of `buildDefUses`: for every block, for every value,
for every argument, append the value to the argument's use list. -/
def defUseF (f : Fn) : Nat → List Nat :=
  f.blocks.foldl
    (fun m b =>
      (f.blks b).values.foldl
        (fun m v => (f.vals v).args.foldl (fun m a => appendAt m a v) m) m)
    (fun _ => [])

/-- The `defBlock` map of `buildDefUses`: for every block, for every control
value, append the block to the control value's block list. -/
def defBlockF (f : Fn) : Nat → List Nat :=
  f.blocks.foldl
    (fun m b => (f.blks b).ctrls.foldl (fun m c => appendAt m c b) m)
    (fun _ => [])

/-- The key set of the `defUse` map, in order of first insertion: exactly the
values that occur as an argument of some value. -/
def defUseKeys (f : Fn) : List Nat :=
  f.blocks.foldl
    (fun ks b =>
      (f.blks b).values.foldl
        (fun ks v =>
          (f.vals v).args.foldl
            (fun ks a => if a ∈ ks then ks else ks ++ [a]) ks) ks)
    []

/-- The verification loop of `buildDefUses`: it ranges over the keys of the
`defUse` map and `Fatalf`s (here: `false`) when a key's recorded `Uses`
count differs from `len(defUse[key]) + len(defBlock[key])`. -/
def buildDefUsesOk (f : Fn) : Bool :=
  (defUseKeys f).all fun k =>
    (f.vals k).usesCnt = (((defUseF f k).length + (defBlockF f k).length : Nat) : Int)

/-- The propagation edge `{start, dest}` of sccp.go, as a pair of block ids. -/
abbrev SEdge := Nat × Nat

/-- The mutable solver state of the `worklist` struct, plus the bookkeeping
this development needs: `newVals`/`nextVal` model the arena of `*Value`
nodes freshly allocated by `f.newValue` (each allocation returns a new,
distinct pointer), and `installLog` records every write to `latticeCells`
in order. -/
structure SState where
  edges : List SEdge
  uses : List Nat
  visited : List SEdge
  cells : Nat → lattice
  newVals : List (Nat × Val)
  nextVal : Nat
  installLog : List (Nat × lattice)

/-- Dereference a value id: probe nodes allocated during the run shadow the
function's own table. -/
def valOf (f : Fn) (s : SState) (i : Nat) : Val :=
  match s.newVals.lookup i with
  | some v => v
  | none => f.vals i

/-- `getLatticeCell`: absent values are optimistically `lattice{top, nil}`;
the state's `cells` is total with that default. -/
def getLatticeCell (s : SState) (v : Nat) : lattice := s.cells v

/-- Install a cell: write `latticeCells[val]` and record the write. -/
def setCell (s : SState) (v : Nat) (lt : lattice) : SState :=
  { s with
    cells := fun x => if x = v then lt else s.cells x,
    installLog := s.installLog ++ [(v, lt)] }

/-- `isDivByZero(op, divisor)`: the opcode is a division or modulo and the
divisor node's `AuxInt` is zero.  (Called with the `*Value` stored in a
constant cell; a `nil` pointer would fault in Go and is read as id 0 here.) -/
def isDivByZero (f : Fn) (s : SState) (op : Op) (divisor : Option Nat) : Bool :=
  isDivModOp op && (valOf f s (divisor.getD 0)).auxInt = 0

/-- The successor edges `propagate(block)` appends for a block, given the
current lattice state: none for the terminating kinds, all successors for
`Defer`, the first successor for `First`/`Plain`, and for `If`/`JumpTable`
the successors selected by the condition's cell (all on Bottom, the branch
`1 - AuxInt` resp. `AuxInt` on a constant, none on Top).  Where Go would
panic (a block without the required successor, or a constant condition
whose `AuxInt` selects an index outside `Succs`), no edge is produced. -/
def propagateEdges (f : Fn) (s : SState) (b : Nat) : List SEdge :=
  let blk := f.blks b
  match blk.kind with
  | .Exit | .Ret | .RetJmp | .Invalid => []
  | .Defer => blk.succs.map (fun sb => (b, sb))
  | .First | .Plain =>
    match blk.succs.get? 0 with
    | some sb => [(b, sb)]
    | none => []
  | .If | .JumpTable =>
    let cond := blk.ctrls.getD 0 0
    let condLattice := getLatticeCell s cond
    if condLattice.tag = .bottom then
      blk.succs.map (fun sb => (b, sb))
    else if condLattice.tag = .constant then
      let auxI := (valOf f s (condLattice.val.getD 0)).auxInt
      let branch : Int := if blk.kind = .If then 1 - auxI else auxI
      if branch < 0 then []
      else
        match blk.succs.get? branch.toNat with
        | some sb => [(b, sb)]
        | none => []
    else []

/-- `propagate(block)`: enqueue the live successor edges. -/
def propagate (f : Fn) (s : SState) (b : Nat) : SState :=
  { s with edges := s.edges ++ propagateEdges f s b }

/-- The binary opcodes of `visitValue`'s constant-expression case list. -/
def isSupportedBinOp (op : Op) : Bool :=
  match op with
  | .Add64 | .Add32 | .Add16 | .Add8 | .Add32F | .Add64F
  | .Sub64 | .Sub32 | .Sub16 | .Sub8 | .Sub32F | .Sub64F
  | .Mul64 | .Mul32 | .Mul16 | .Mul8 | .Mul32F | .Mul64F
  | .Div32F | .Div64F
  | .Div8 | .Div16 | .Div32 | .Div64
  | .Div8u | .Div16u | .Div32u | .Div64u
  | .Mod8 | .Mod16 | .Mod32 | .Mod64
  | .Mod8u | .Mod16u | .Mod32u | .Mod64u
  | .Eq64 | .Eq32 | .Eq16 | .Eq8 | .Eq32F | .Eq64F
  | .Less64 | .Less32 | .Less16 | .Less8
  | .Less64U | .Less32U | .Less16U | .Less8U
  | .Less32F | .Less64F
  | .Leq64 | .Leq32 | .Leq16 | .Leq8
  | .Leq64U | .Leq32U | .Leq16U | .Leq8U
  | .Leq32F | .Leq64F => true
  | _ => false

/-- Modelled from the spec (§4.3): the constant opcode that the generic
rewriter produces when it folds a supported binary opcode — the matching
integer/float width for arithmetic, `ConstBool` for comparisons. -/
def constResultOp (op : Op) : Op :=
  match op with
  | .Add64 | .Sub64 | .Mul64 | .Div64 | .Div64u | .Mod64 | .Mod64u => .Const64
  | .Add32 | .Sub32 | .Mul32 | .Div32 | .Div32u | .Mod32 | .Mod32u => .Const32
  | .Add16 | .Sub16 | .Mul16 | .Div16 | .Div16u | .Mod16 | .Mod16u => .Const16
  | .Add8 | .Sub8 | .Mul8 | .Div8 | .Div8u | .Mod8 | .Mod8u => .Const8
  | .Add32F | .Sub32F | .Mul32F | .Div32F => .Const32F
  | .Add64F | .Sub64F | .Mul64F | .Div64F => .Const64F
  | .Eq64 | .Eq32 | .Eq16 | .Eq8 | .Eq32F | .Eq64F
  | .Less64 | .Less32 | .Less16 | .Less8
  | .Less64U | .Less32U | .Less16U | .Less8U
  | .Less32F | .Less64F
  | .Leq64 | .Leq32 | .Leq16 | .Leq8
  | .Leq64U | .Leq32U | .Leq16U | .Leq8U
  | .Leq32F | .Leq64F => .ConstBool
  | _ => .Other

/-- Wrap an integer into the signed range of a `w`-bit word. -/
def wrapS (w : Nat) (x : Int) : Int := (x + 2 ^ (w - 1)) % 2 ^ w - 2 ^ (w - 1)

/-- Reinterpret a `w`-bit word as unsigned. -/
def toU (w : Nat) (x : Int) : Int := x % 2 ^ w

/-- Modelled from the spec (§4.3): the literal computed by the generic
rewriter's fold rules (rewriteValuegeneric, which is not part of src/) for a
supported binary opcode on two constant `AuxInt` payloads.  Integer
arithmetic wraps at the opcode's width; comparisons yield 0/1; the
floating-point folds (whose `AuxInt`s are bit patterns) are abstracted to 0.
No claim of this development depends on the numeric result, only on the
fact that a fold happens and allocates a fresh node. -/
def evalLit (op : Op) (a b : Int) : Int :=
  let cmp (p : Prop) [Decidable p] : Int := if p then 1 else 0
  match op with
  | .Add64 => wrapS 64 (a + b)
  | .Add32 => wrapS 32 (a + b)
  | .Add16 => wrapS 16 (a + b)
  | .Add8 => wrapS 8 (a + b)
  | .Sub64 => wrapS 64 (a - b)
  | .Sub32 => wrapS 32 (a - b)
  | .Sub16 => wrapS 16 (a - b)
  | .Sub8 => wrapS 8 (a - b)
  | .Mul64 => wrapS 64 (a * b)
  | .Mul32 => wrapS 32 (a * b)
  | .Mul16 => wrapS 16 (a * b)
  | .Mul8 => wrapS 8 (a * b)
  | .Div64 => wrapS 64 (Int.tdiv (wrapS 64 a) (wrapS 64 b))
  | .Div32 => wrapS 32 (Int.tdiv (wrapS 32 a) (wrapS 32 b))
  | .Div16 => wrapS 16 (Int.tdiv (wrapS 16 a) (wrapS 16 b))
  | .Div8 => wrapS 8 (Int.tdiv (wrapS 8 a) (wrapS 8 b))
  | .Mod64 => wrapS 64 (Int.tmod (wrapS 64 a) (wrapS 64 b))
  | .Mod32 => wrapS 32 (Int.tmod (wrapS 32 a) (wrapS 32 b))
  | .Mod16 => wrapS 16 (Int.tmod (wrapS 16 a) (wrapS 16 b))
  | .Mod8 => wrapS 8 (Int.tmod (wrapS 8 a) (wrapS 8 b))
  | .Div64u => wrapS 64 (Int.tdiv (toU 64 a) (toU 64 b))
  | .Div32u => wrapS 32 (Int.tdiv (toU 32 a) (toU 32 b))
  | .Div16u => wrapS 16 (Int.tdiv (toU 16 a) (toU 16 b))
  | .Div8u => wrapS 8 (Int.tdiv (toU 8 a) (toU 8 b))
  | .Mod64u => wrapS 64 (Int.tmod (toU 64 a) (toU 64 b))
  | .Mod32u => wrapS 32 (Int.tmod (toU 32 a) (toU 32 b))
  | .Mod16u => wrapS 16 (Int.tmod (toU 16 a) (toU 16 b))
  | .Mod8u => wrapS 8 (Int.tmod (toU 8 a) (toU 8 b))
  | .Eq64 | .Eq32 | .Eq16 | .Eq8 => cmp (a = b)
  | .Less64 => cmp (wrapS 64 a < wrapS 64 b)
  | .Less32 => cmp (wrapS 32 a < wrapS 32 b)
  | .Less16 => cmp (wrapS 16 a < wrapS 16 b)
  | .Less8 => cmp (wrapS 8 a < wrapS 8 b)
  | .Less64U => cmp (toU 64 a < toU 64 b)
  | .Less32U => cmp (toU 32 a < toU 32 b)
  | .Less16U => cmp (toU 16 a < toU 16 b)
  | .Less8U => cmp (toU 8 a < toU 8 b)
  | .Leq64 => cmp (wrapS 64 a ≤ wrapS 64 b)
  | .Leq32 => cmp (wrapS 32 a ≤ wrapS 32 b)
  | .Leq16 => cmp (wrapS 16 a ≤ wrapS 16 b)
  | .Leq8 => cmp (wrapS 8 a ≤ wrapS 8 b)
  | .Leq64U => cmp (toU 64 a ≤ toU 64 b)
  | .Leq32U => cmp (toU 32 a ≤ toU 32 b)
  | .Leq16U => cmp (toU 16 a ≤ toU 16 b)
  | .Leq8U => cmp (toU 8 a ≤ toU 8 b)
  | _ => 0

/-- Modelled from the spec (§4.3): `rewriteValuegeneric` applied to a probe
node — it is not part of src/.  Per the spec, for every supported binary
opcode whose two arguments are constant-literal nodes the rewriter matches
and rewrites the node in place into a constant node; otherwise it reports
no match and leaves the node unchanged. -/
def rewriteValuegenericModel (argOf : Nat → Val) (probe : Val) : Val × Bool :=
  let a1 := argOf (probe.args.getD 0 0)
  let a2 := argOf (probe.args.getD 1 0)
  if isSupportedBinOp probe.op && isConst a1.op && isConst a2.op then
    ({ probe with
        op := constResultOp probe.op,
        auxInt := evalLit probe.op a1.auxInt a2.auxInt,
        args := [] }, true)
  else (probe, false)

/-- `computeConstValue(f, val, args...)`: allocate a fresh probe node with
`val`'s opcode (a new `*Value` every call — `f.newValue` never returns an
existing node), attach the argument pointers, run the generic rewriter on
it, and return the (possibly rewritten) node and whether a rule matched. -/
def computeConstValue (f : Fn) (s : SState) (v : Nat) (a1 a2 : Nat) :
    SState × Nat × Bool :=
  let vv := f.vals v
  let nid := s.nextVal
  let probe : Val :=
    { op := vv.op, args := [a1, a2], block := f.entry, auxInt := 0,
      typ := vv.typ, usesCnt := 0 }
  let res := rewriteValuegenericModel (valOf f s) probe
  ({ s with newVals := s.newVals ++ [(nid, res.1)], nextVal := nid + 1 },
   nid, res.2)

/-- The argument cells `visitPhi` hands to `meet`: for each argument
position whose incoming edge `{Preds[i].b, val.Block}` is visited, the
current cell of that argument; unvisited positions are skipped. -/
def phiArgCells (f : Fn) (s : SState) (v : Nat) : List lattice :=
  let vv := f.vals v
  let bb := f.blks vv.block
  (List.range vv.args.length).filterMap fun i =>
    if ((bb.preds.getD i 0 : Nat), vv.block) ∈ s.visited then
      some (getLatticeCell s (vv.args.getD i 0))
    else none

/-- `visitPhi`: install the meet of the visited-edge argument cells. -/
def visitPhi (f : Fn) (s : SState) (v : Nat) : SState :=
  setCell s v (meet (phiArgCells f s v))

/-- The switch of `visitValue`: compute and install the new cell of `v`. -/
def visitValueBody (f : Fn) (s : SState) (v : Nat) : SState :=
  let vv := f.vals v
  if isConst vv.op then
    setCell s v ⟨.constant, some v⟩
  else if vv.op = .Copy then
    setCell s v (getLatticeCell s (vv.args.getD 0 0))
  else if vv.op = .Phi then
    visitPhi f s v
  else if isSupportedBinOp vv.op then
    let lt1 := getLatticeCell s (vv.args.getD 0 0)
    let lt2 := getLatticeCell s (vv.args.getD 1 0)
    if lt1.tag ≠ .constant ∨ lt2.tag ≠ .constant ∨
        isDivByZero f s vv.op lt2.val then
      setCell s v latBot
    else
      let res := computeConstValue f s v (lt1.val.getD 0) (lt2.val.getD 0)
      if res.2.2 then setCell res.1 v ⟨.constant, some res.2.1⟩
      else setCell res.1 v latBot
  else
    setCell s v latBot

/-- `addUses`: push every non-self use of `v` onto the value worklist and
run `propagate` on every block that has `v` as a control value. -/
def addUses (f : Fn) (s : SState) (v : Nat) : SState :=
  let s1 := { s with uses := s.uses ++ (defUseF f v).filter (fun u => u ≠ v) }
  (defBlockF f v).foldl (fun st b => propagate f st b) s1

/-- `visitValue` with its deferred epilogue: install the new cell, and if
the cell changed (different tag or different value pointer), wake up the
uses. -/
def visitValue (f : Fn) (s : SState) (v : Nat) : SState :=
  let oldLt := getLatticeCell s v
  let s1 := visitValueBody f s v
  if getLatticeCell s1 v ≠ oldLt then addUses f s1 v else s1

/-- The value loop of the edge-processing step: visit each value of the
destination block that is a `Phi` (always) or any value (on the first
visit of the block). -/
def visitVals (f : Fn) (s : SState) (vs : List Nat) (destVisited : Bool) :
    SState :=
  vs.foldl
    (fun st v =>
      if (f.vals v).op = .Phi ∨ destVisited = false then visitValue f st v
      else st)
    s

/-- Process one dequeued edge: skip it if already visited; otherwise mark it
visited, re-evaluate the destination's values, and on the first visit of
the destination run block propagation on it. -/
def processEdge (f : Fn) (s : SState) (e : SEdge) : SState :=
  if e ∈ s.visited then s
  else
    let dest := e.2
    let destVisited := s.visited.any (fun ve => ve.2 = dest)
    let s1 := { s with visited := s.visited ++ [e] }
    let s2 := visitVals f s1 (f.blks dest).values destVisited
    if destVisited then s2 else propagate f s2 dest

/-- One iteration of the main loop of `sccp`: drain the edge worklist
first; only when it is empty pop a value from the value worklist. -/
def step (f : Fn) (s : SState) : SState :=
  match s.edges with
  | e :: rest => processEdge f { s with edges := rest } e
  | [] =>
    match s.uses with
    | u :: rest => visitValue f { s with uses := rest } u
    | [] => s

/-- Both worklists are drained. -/
def solverDone (s : SState) : Bool := s.edges.isEmpty && s.uses.isEmpty

/-- Run the main loop for at most `fuel` iterations. -/
def run (f : Fn) : Nat → SState → SState
  | 0, s => s
  | n + 1, s => if solverDone s then s else run f n (step f s)

/-- The solver state at the top of `sccp`: the edge worklist seeded with
the self-edge on the entry block, everything else empty, every cell
optimistically `lattice{top, nil}`. -/
def initState (f : Fn) : SState :=
  { edges := [(f.entry, f.entry)], uses := [], visited := [],
    cells := fun _ => latTop, newVals := [], nextVal := f.freshBase,
    installLog := [] }

/-- The cells installed for `v` by `visitValue`/`visitPhi`, in order. -/
def installedCells (s : SState) (v : Nat) : List lattice :=
  (s.installLog.filter (fun p => p.1 = v)).map Prod.snd

/-- The height of a lattice tag: Top above Const above Bottom. -/
def ltagLevel : Ltag → Nat
  | .bottom => 0
  | .constant => 1
  | .top => 2

/-- Consecutive cells never ascend in the Top ≥ Const ≥ Bottom order. -/
def nonAscending : List lattice → Prop
  | [] => True
  | [_] => True
  | a :: b :: r => ltagLevel b.tag ≤ ltagLevel a.tag ∧ nonAscending (b :: r)

instance instDecNonAscending : (l : List lattice) → Decidable (nonAscending l)
  | [] => .isTrue trivial
  | [_] => .isTrue trivial
  | _ :: b :: r =>
    have : Decidable (nonAscending (b :: r)) := instDecNonAscending (b :: r)
    inferInstanceAs (Decidable (_ ∧ _))

/-- The number of transitions (consecutive pairs of different cells). -/
def transitionCount : List lattice → Nat
  | [] => 0
  | [_] => 0
  | a :: b :: r => (if a ≠ b then 1 else 0) + transitionCount (b :: r)

/-- A one-block function: block 1 holds, in this order,
value 10 `z = Add32(11, 12)`, value 11 `a = Const32 1`,
value 12 `u = Const32 2`.  (Value lists of SSA blocks carry no dependency
order before scheduling, so a use may precede its definition.) -/
def fn1Vals : Nat → Val := fun i =>
  if i = 10 then ⟨.Add32, [11, 12], 1, 0, 0, 0⟩
  else if i = 11 then ⟨.Const32, [], 1, 1, 0, 1⟩
  else if i = 12 then ⟨.Const32, [], 1, 2, 0, 1⟩
  else ⟨.Other, [], 0, 0, 0, 0⟩

def fn1 : Fn :=
  { blocks := [1],
    blks := fun _ => ⟨.Exit, [], [], [10, 11, 12], [], 0⟩,
    vals := fn1Vals,
    entry := 1,
    freshBase := 100 }

/-- C1 counterexample: on `fn1` the solver terminates (both worklists
drain within 20 iterations), and the sequence of cells installed for value
10 — starting from the optimistic `Top` — is
`Top, Bottom, Const(100), Const(101)`: it ascends from Bottom back to
Const (the first visit sees the still-Top cell of argument 11, the
re-visits triggered by the arguments' installs see two constants), and it
has three transitions, not at most two. -/
theorem C1_counterexample :
    solverDone (run fn1 20 (initState fn1)) = true ∧
    latTop :: installedCells (run fn1 20 (initState fn1)) 10 =
      [latTop, latBot, ⟨.constant, some 100⟩, ⟨.constant, some 101⟩] ∧
    ¬ (nonAscending (latTop :: installedCells (run fn1 20 (initState fn1)) 10) ∧
       transitionCount
         (latTop :: installedCells (run fn1 20 (initState fn1)) 10) ≤ 2) := by
  refine ⟨by decide, by decide, ?_⟩
  rintro ⟨hasc, -⟩
  rw [show latTop :: installedCells (run fn1 20 (initState fn1)) 10 =
      [latTop, latBot, ⟨.constant, some 100⟩, ⟨.constant, some 101⟩] from by decide] at hasc
  exact absurd hasc (by decide)

/-- Argument id at position `i` (Go faults on out-of-range; id 0 here). -/
def argAt (f : Fn) (v i : Nat) : Nat := (f.vals v).args.getD i 0

/-- Argument id at position 0, as read by the `OpCopy` case. -/
def arg0 (f : Fn) (v : Nat) : Nat := argAt f v 0

/-- The incoming edge corresponding to φ argument position `i`:
`{val.Block.Preds[i].b, val.Block}`. -/
def phiPos (f : Fn) (v i : Nat) : SEdge :=
  ((f.blks (f.vals v).block).preds.getD i 0, (f.vals v).block)

theorem mem_phiArgCells_of (f : Fn) (s : SState) (v i : Nat)
    (hi : i < (f.vals v).args.length) (hv : phiPos f v i ∈ s.visited) :
    getLatticeCell s (argAt f v i) ∈ phiArgCells f s v := by
  unfold phiArgCells
  apply List.mem_filterMap.mpr
  refine ⟨i, List.mem_range.mpr hi, ?_⟩
  rw [if_pos (by exact hv)]
  rfl

theorem of_mem_phiArgCells (f : Fn) (s : SState) (v : Nat) (x : lattice)
    (hx : x ∈ phiArgCells f s v) :
    ∃ i, i < (f.vals v).args.length ∧ phiPos f v i ∈ s.visited ∧
      x = getLatticeCell s (argAt f v i) := by
  unfold phiArgCells at hx
  rcases List.mem_filterMap.mp hx with ⟨i, hi, hg⟩
  refine ⟨i, List.mem_range.mp hi, ?_⟩
  by_cases hv : phiPos f v i ∈ s.visited
  · rw [if_pos (by exact hv)] at hg
    cases hg
    exact ⟨hv, rfl⟩
  · rw [if_neg (by exact hv)] at hg
    cases hg

/-- One step of the no-revert order: an install after a non-Top install is
non-Top. -/
def noRevertStep (a b : lattice) : Prop := a.tag ≠ .top → b.tag ≠ .top

theorem installedCells_setCell (s : SState) (v : Nat) (w : lattice) (u : Nat) :
    installedCells (setCell s v w) u =
      if u = v then installedCells s u ++ [w] else installedCells s u := by
  unfold installedCells setCell
  simp only [List.filter_append, List.map_append]
  by_cases h : u = v
  · subst h
    simp
  · rw [if_neg h]
    have : List.filter (fun p => p.1 = u) [(v, w)] = [] := by
      simp [Ne.symm h]
    simp [this]

theorem cells_setCell (s : SState) (v : Nat) (w : lattice) :
    (setCell s v w).cells = fun x => if x = v then w else s.cells x := rfl

theorem visited_setCell (s : SState) (v : Nat) (w : lattice) :
    (setCell s v w).visited = s.visited := rfl

theorem getLastD_concat_lat (l : List lattice) (w : lattice) :
    (l ++ [w]).getLastD latTop = w := by
  induction l with
  | nil => rfl
  | cons a t ih =>
    rw [List.cons_append, List.getLastD_cons]
    cases t with
    | nil => rfl
    | cons b r =>
      rw [List.cons_append, List.getLastD_cons] at ih ⊢
      exact ih

theorem top_closed_of_last_top :
    ∀ l : List lattice, l.Pairwise noRevertStep →
      (l.getLastD latTop).tag = .top → ∀ a ∈ l, a.tag = .top
  | [], _, _ => by simp
  | [a], _, hl => by
    simp only [List.getLastD_cons, List.getLastD_nil] at hl
    simpa using hl
  | a :: b :: r, hp, hl => by
    have ht : ((b :: r).getLastD latTop).tag = .top := by
      rw [List.getLastD_cons, List.getLastD_cons] at hl
      rw [List.getLastD_cons]
      exact hl
    have ih := top_closed_of_last_top (b :: r) hp.tail ht
    intro x hx
    rcases List.mem_cons.mp hx with rfl | hx'
    · by_contra hxt
      have hab : noRevertStep x b := (List.pairwise_cons.mp hp).1 b (by simp)
      exact (hab hxt) (ih b (by simp))
    · exact ih x hx'

theorem last_nonTop_of_exists :
    ∀ l : List lattice, l.Pairwise noRevertStep →
      (∃ c ∈ l, c.tag ≠ .top) → (l.getLastD latTop).tag ≠ .top
  | [], _, hex => by simp at hex
  | [a], _, hex => by
    simp only [List.getLastD_cons, List.getLastD_nil]
    rcases hex with ⟨c, hc, hct⟩
    simp at hc
    subst hc
    exact hct
  | a :: b :: r, hp, hex => by
    rw [List.getLastD_cons, List.getLastD_cons]
    rcases hex with ⟨c, hc, hct⟩
    rcases List.mem_cons.mp hc with rfl | hc'
    · have hab : noRevertStep c b := (List.pairwise_cons.mp hp).1 b (by simp)
      have h2 : ((b :: r).getLastD latTop).tag ≠ .top :=
        last_nonTop_of_exists (b :: r) hp.tail ⟨b, by simp, hab hct⟩
      rw [List.getLastD_cons] at h2
      exact h2
    · have h2 : ((b :: r).getLastD latTop).tag ≠ .top :=
        last_nonTop_of_exists (b :: r) hp.tail ⟨c, hc', hct⟩
      rw [List.getLastD_cons] at h2
      exact h2

theorem getLastD_mem_lat : ∀ l : List lattice, l ≠ [] → l.getLastD latTop ∈ l
  | [a], _ => by simp [List.getLastD_cons]
  | a :: b :: r, _ => by
    rw [List.getLastD_cons, List.getLastD_cons]
    have h := getLastD_mem_lat (b :: r) (by simp)
    rw [List.getLastD_cons] at h
    exact List.mem_cons_of_mem a h

theorem exists_nonTop_of_last (l : List lattice)
    (h : (l.getLastD latTop).tag ≠ .top) : ∃ c ∈ l, c.tag ≠ .top := by
  cases l with
  | nil => exact absurd rfl h
  | cons a t => exact ⟨(a :: t).getLastD latTop, getLastD_mem_lat _ (by simp), h⟩

/-- The global solver invariant behind the no-revert property: the cell
table agrees with the last entry of the install log; installs never revert
to Top; and a Copy (resp. φ) that has a non-Top install has an argument
(resp. a visited-position argument) with a non-Top install. -/
structure SInv (f : Fn) (s : SState) : Prop where
  agree : ∀ v, s.cells v = (installedCells s v).getLastD latTop
  noRev : ∀ v, (installedCells s v).Pairwise noRevertStep
  copyW : ∀ v, (f.vals v).op = .Copy →
    (∃ c ∈ installedCells s v, c.tag ≠ .top) →
    ∃ c ∈ installedCells s (arg0 f v), c.tag ≠ .top
  phiW : ∀ v, (f.vals v).op = .Phi →
    (∃ c ∈ installedCells s v, c.tag ≠ .top) →
    ∃ i, i < (f.vals v).args.length ∧ phiPos f v i ∈ s.visited ∧
      ∃ c ∈ installedCells s (argAt f v i), c.tag ≠ .top

theorem cell_nonTop_of_exists {f : Fn} {s : SState} (h : SInv f s) (x : Nat)
    (hex : ∃ c ∈ installedCells s x, c.tag ≠ .top) :
    (s.cells x).tag ≠ .top := by
  rw [h.agree x]
  exact last_nonTop_of_exists _ (h.noRev x) hex

theorem exists_of_cell_nonTop {f : Fn} {s : SState} (h : SInv f s) (x : Nat)
    (hx : (s.cells x).tag ≠ .top) : ∃ c ∈ installedCells s x, c.tag ≠ .top := by
  rw [h.agree x] at hx
  exact exists_nonTop_of_last _ hx

theorem all_top_installed {f : Fn} {s : SState} (h : SInv f s) (x : Nat)
    (hx : (s.cells x).tag = .top) : ∀ a ∈ installedCells s x, a.tag = .top := by
  rw [h.agree x] at hx
  exact top_closed_of_last_top _ (h.noRev x) hx

theorem exists_mono_setCell (s : SState) (v : Nat) (w : lattice) (x : Nat)
    (h : ∃ c ∈ installedCells s x, c.tag ≠ .top) :
    ∃ c ∈ installedCells (setCell s v w) x, c.tag ≠ .top := by
  rw [installedCells_setCell]
  rcases h with ⟨c, hc, hct⟩
  by_cases hx : x = v
  · rw [if_pos hx]
    exact ⟨c, List.mem_append_left _ hc, hct⟩
  · rw [if_neg hx]
    exact ⟨c, hc, hct⟩

/-- Master install lemma: one `setCell` preserves the invariant, given the
semantic facts the opcode cases supply about the installed cell `w`. -/
theorem SInv_setCell {f : Fn} {s : SState} (v : Nat) (w : lattice)
    (h : SInv f s)
    (hw : w.tag = .top → (s.cells v).tag = .top)
    (hcopy : (f.vals v).op = .Copy → w.tag ≠ .top →
      ∃ c ∈ installedCells s (arg0 f v), c.tag ≠ .top)
    (hphi : (f.vals v).op = .Phi → w.tag ≠ .top →
      ∃ i, i < (f.vals v).args.length ∧ phiPos f v i ∈ s.visited ∧
        ∃ c ∈ installedCells s (argAt f v i), c.tag ≠ .top) :
    SInv f (setCell s v w) := by
  constructor
  · intro u
    rw [installedCells_setCell, cells_setCell]
    dsimp only
    by_cases hu : u = v
    · rw [if_pos hu, if_pos hu, getLastD_concat_lat]
    · rw [if_neg hu, if_neg hu]
      exact h.agree u
  · intro u
    rw [installedCells_setCell]
    by_cases hu : u = v
    · rw [if_pos hu]
      subst hu
      rw [List.pairwise_append]
      refine ⟨h.noRev u, List.pairwise_singleton _ _, ?_⟩
      intro a ha b hb hat
      rcases List.mem_singleton.mp hb with rfl
      intro hbt
      have hall := all_top_installed h u (hw hbt)
      exact hat (hall a ha)
    · rw [if_neg hu]
      exact h.noRev u
  · intro u hop hex
    apply exists_mono_setCell
    rw [installedCells_setCell] at hex
    by_cases hu : u = v
    · rw [if_pos hu] at hex
      subst hu
      rcases hex with ⟨c, hc, hct⟩
      rcases List.mem_append.mp hc with hc' | hc'
      · exact h.copyW u hop ⟨c, hc', hct⟩
      · rcases List.mem_singleton.mp hc' with rfl
        exact hcopy hop hct
    · rw [if_neg hu] at hex
      exact h.copyW u hop hex
  · intro u hop hex
    rw [installedCells_setCell] at hex
    by_cases hu : u = v
    · rw [if_pos hu] at hex
      subst hu
      rcases hex with ⟨c, hc, hct⟩
      rcases List.mem_append.mp hc with hc' | hc'
      · rcases h.phiW u hop ⟨c, hc', hct⟩ with ⟨i, hi, hvis, hexi⟩
        exact ⟨i, hi, by rw [visited_setCell]; exact hvis,
          exists_mono_setCell _ _ _ _ hexi⟩
      · rcases List.mem_singleton.mp hc' with rfl
        rcases hphi hop hct with ⟨i, hi, hvis, hexi⟩
        exact ⟨i, hi, by rw [visited_setCell]; exact hvis,
          exists_mono_setCell _ _ _ _ hexi⟩
    · rw [if_neg hu] at hex
      rcases h.phiW u hop hex with ⟨i, hi, hvis, hexi⟩
      exact ⟨i, hi, by rw [visited_setCell]; exact hvis,
        exists_mono_setCell _ _ _ _ hexi⟩

/-- The invariant only reads `cells`, `installLog` and `visited`. -/
theorem SInv_congr {f : Fn} {s s' : SState} (h : SInv f s)
    (hc : s'.cells = s.cells) (hl : s'.installLog = s.installLog)
    (hv : s'.visited = s.visited) : SInv f s' := by
  have hic : installedCells s' = installedCells s := by
    funext x
    unfold installedCells
    rw [hl]
  constructor
  · intro u
    rw [hc, hic]
    exact h.agree u
  · intro u
    rw [hic]
    exact h.noRev u
  · intro u hop hex
    rw [hic] at hex ⊢
    exact h.copyW u hop hex
  · intro u hop hex
    rw [hic] at hex ⊢
    rw [hv]
    exact h.phiW u hop hex

theorem SInv_visitValueBody (f : Fn) (s : SState) (v : Nat) (h : SInv f s) :
    SInv f (visitValueBody f s v) := by
  unfold visitValueBody
  dsimp only
  by_cases h1 : isConst (f.vals v).op
  · rw [if_pos h1]
    refine SInv_setCell v _ h ?_ ?_ ?_
    · intro hwt
      cases hwt
    · intro hop
      rw [hop] at h1
      cases h1
    · intro hop
      rw [hop] at h1
      cases h1
  · rw [if_neg h1]
    by_cases h2 : (f.vals v).op = .Copy
    · rw [if_pos h2]
      refine SInv_setCell v _ h ?_ ?_ ?_
      · intro hwt
        by_contra hvt
        have hex := exists_of_cell_nonTop h v hvt
        have hexa := h.copyW v h2 hex
        exact (cell_nonTop_of_exists h (arg0 f v) hexa) hwt
      · intro _ hwnt
        exact exists_of_cell_nonTop h (arg0 f v) hwnt
      · intro hop
        rw [hop] at h2
        cases h2
    · rw [if_neg h2]
      by_cases h3 : (f.vals v).op = .Phi
      · rw [if_pos h3]
        unfold visitPhi
        refine SInv_setCell v _ h ?_ ?_ ?_
        · intro hwt
          have hwl : meet (phiArgCells f s v) = latTop := by
            rcases meet_shape (phiArgCells f s v) with hs | hs | ⟨w', hs⟩
            · exact hs
            · rw [hs] at hwt
              cases hwt
            · rw [hs] at hwt
              cases hwt
          have hall := (meet_eq_top_iff _).mp hwl
          by_contra hvt
          have hex := exists_of_cell_nonTop h v hvt
          rcases h.phiW v h3 hex with ⟨i, hi, hvis, hexi⟩
          have hnt := cell_nonTop_of_exists h (argAt f v i) hexi
          exact hnt (hall _ (mem_phiArgCells_of f s v i hi hvis))
        · intro hop
          rw [hop] at h3
          cases h3
        · intro _ hwnt
          have hnall : ¬ allTop (phiArgCells f s v) := by
            intro hall
            rw [(meet_eq_top_iff _).mpr hall] at hwnt
            exact hwnt rfl
          unfold allTop at hnall
          push_neg at hnall
          rcases hnall with ⟨x, hx, hxt⟩
          rcases of_mem_phiArgCells f s v x hx with ⟨i, hi, hvis, hxe⟩
          refine ⟨i, hi, hvis, ?_⟩
          apply exists_of_cell_nonTop h
          rw [hxe] at hxt
          exact hxt
      · rw [if_neg h3]
        by_cases h4 : isSupportedBinOp (f.vals v).op
        · rw [if_pos h4]
          by_cases h5 : (getLatticeCell s ((f.vals v).args.getD 0 0)).tag ≠ .constant ∨
              (getLatticeCell s ((f.vals v).args.getD 1 0)).tag ≠ .constant ∨
              isDivByZero f s (f.vals v).op
                (getLatticeCell s ((f.vals v).args.getD 1 0)).val
          · rw [if_pos h5]
            refine SInv_setCell v _ h ?_ ?_ ?_
            · intro hwt
              cases hwt
            · intro hop
              rw [hop] at h2
              exact absurd rfl h2
            · intro hop
              rw [hop] at h3
              exact absurd rfl h3
          · rw [if_neg h5]
            have hres : SInv f (computeConstValue f s v
                ((getLatticeCell s ((f.vals v).args.getD 0 0)).val.getD 0)
                ((getLatticeCell s ((f.vals v).args.getD 1 0)).val.getD 0)).1 :=
              SInv_congr h rfl rfl rfl
            by_cases h6 : (computeConstValue f s v
                ((getLatticeCell s ((f.vals v).args.getD 0 0)).val.getD 0)
                ((getLatticeCell s ((f.vals v).args.getD 1 0)).val.getD 0)).2.2 = true
            · rw [if_pos h6]
              refine SInv_setCell v _ hres ?_ ?_ ?_
              · intro hwt
                cases hwt
              · intro hop
                rw [hop] at h2
                exact absurd rfl h2
              · intro hop
                rw [hop] at h3
                exact absurd rfl h3
            · rw [if_neg h6]
              refine SInv_setCell v _ hres ?_ ?_ ?_
              · intro hwt
                cases hwt
              · intro hop
                rw [hop] at h2
                exact absurd rfl h2
              · intro hop
                rw [hop] at h3
                exact absurd rfl h3
        · rw [if_neg h4]
          refine SInv_setCell v _ h ?_ ?_ ?_
          · intro hwt
            cases hwt
          · intro hop
            rw [hop] at h2
            exact absurd rfl h2
          · intro hop
            rw [hop] at h3
            exact absurd rfl h3

theorem SInv_propagate {f : Fn} {s : SState} (b : Nat) (h : SInv f s) :
    SInv f (propagate f s b) :=
  SInv_congr h rfl rfl rfl

theorem SInv_foldl_propagate {f : Fn} (bs : List Nat) :
    ∀ {s : SState}, SInv f s →
      SInv f (bs.foldl (fun st b => propagate f st b) s) := by
  induction bs with
  | nil => exact fun h => h
  | cons b t ih => exact fun h => ih (SInv_propagate b h)

theorem SInv_addUses {f : Fn} {s : SState} (v : Nat) (h : SInv f s) :
    SInv f (addUses f s v) := by
  unfold addUses
  dsimp only
  exact SInv_foldl_propagate _ (SInv_congr h rfl rfl rfl)

theorem SInv_visitValue {f : Fn} {s : SState} (v : Nat) (h : SInv f s) :
    SInv f (visitValue f s v) := by
  unfold visitValue
  dsimp only
  have hb := SInv_visitValueBody f s v h
  split
  · exact SInv_addUses v hb
  · exact hb

theorem SInv_visitVals {f : Fn} (vs : List Nat) (dv : Bool) :
    ∀ {s : SState}, SInv f s → SInv f (visitVals f s vs dv) := by
  induction vs with
  | nil => exact fun h => h
  | cons v t ih =>
    intro s h
    unfold visitVals
    rw [List.foldl_cons]
    show SInv f (visitVals f _ t dv)
    split
    · exact ih (SInv_visitValue v h)
    · exact ih h

theorem SInv_visited_append {f : Fn} {s : SState} (e : SEdge) (h : SInv f s) :
    SInv f { s with visited := s.visited ++ [e] } := by
  constructor
  · exact h.agree
  · exact h.noRev
  · exact h.copyW
  · intro u hop hex
    rcases h.phiW u hop hex with ⟨i, hi, hvis, hexi⟩
    exact ⟨i, hi, List.mem_append_left _ hvis, hexi⟩

theorem SInv_processEdge {f : Fn} {s : SState} (e : SEdge) (h : SInv f s) :
    SInv f (processEdge f s e) := by
  unfold processEdge
  dsimp only
  split
  · exact h
  · have h1 := SInv_visited_append e h
    split
    · exact SInv_visitVals _ _ h1
    · exact SInv_propagate _ (SInv_visitVals _ _ h1)

theorem SInv_step {f : Fn} {s : SState} (h : SInv f s) : SInv f (step f s) := by
  unfold step
  rcases he : s.edges with _ | ⟨e, rest⟩
  · rcases hu : s.uses with _ | ⟨u, urest⟩
    · exact h
    · exact SInv_visitValue u (SInv_congr h rfl rfl rfl)
  · exact SInv_processEdge e (SInv_congr h rfl rfl rfl)

theorem SInv_run (f : Fn) (fuel : Nat) :
    ∀ {s : SState}, SInv f s → SInv f (run f fuel s) := by
  induction fuel with
  | zero => exact fun h => h
  | succ n ih =>
    intro s h
    unfold run
    split
    · exact h
    · exact ih (SInv_step h)

theorem SInv_init (f : Fn) : SInv f (initState f) := by
  constructor
  · intro v
    rfl
  · intro v
    exact List.Pairwise.nil
  · intro v _ hex
    simp [installedCells, initState] at hex
  · intro v _ hex
    simp [installedCells, initState] at hex

/-- C1 (amended): the claimed monotone descent fails on the code (see the
counterexample: a Bottom cell is raised back to Const and three transitions
occur); what does hold across every run on every input function is that a
cell never returns to Top once it has left Top: in the sequence of cells
installed for any value, every install after a non-Top install is again
non-Top. -/
theorem C1_no_revert_to_top (f : Fn) (fuel v : Nat) :
    (installedCells (run f fuel (initState f)) v).Pairwise noRevertStep :=
  (SInv_run f fuel (SInv_init f)).noRev v

/-- C5: propagation on an If block `b` with control `c` and successors
`[s0, s1]`: a Bottom condition enqueues both successor edges in order; a
constant condition with boolean payload enqueues exactly the edge to
successor `1 - AuxInt` (AuxInt 0 picks successor 1, AuxInt 1 picks
successor 0); a Top condition enqueues nothing. -/
theorem C5_propagate_if (f : Fn) (s : SState) (b c s0 s1 : Nat)
    (hk : (f.blks b).kind = .If)
    (hc : (f.blks b).ctrls = [c])
    (hsuc : (f.blks b).succs = [s0, s1]) :
    ((getLatticeCell s c).tag = .bottom →
      propagateEdges f s b = [(b, s0), (b, s1)]) ∧
    (∀ k : Nat, getLatticeCell s c = ⟨.constant, some k⟩ →
      ((valOf f s k).auxInt = 0 → propagateEdges f s b = [(b, s1)]) ∧
      ((valOf f s k).auxInt = 1 → propagateEdges f s b = [(b, s0)])) ∧
    ((getLatticeCell s c).tag = .top → propagateEdges f s b = []) := by
  unfold propagateEdges
  dsimp only
  rw [hk, hc, hsuc]
  refine ⟨?_, ?_, ?_⟩
  · intro hbot
    simp only [List.getD_cons_zero]
    rw [if_pos hbot]
    rfl
  · intro k hcell
    simp only [List.getD_cons_zero]
    rw [hcell]
    constructor
    · intro ha
      rw [if_neg (by simp), if_pos (by simp)]
      simp [ha]
    · intro ha
      rw [if_neg (by simp), if_pos (by simp)]
      simp [ha]
  · intro htop
    simp only [List.getD_cons_zero]
    rw [if_neg (by rw [htop]; simp), if_neg (by rw [htop]; simp)]

/-- A concrete If block for the C5 witness: block 2 with control value 5
whose cell is `Const(7)`, node 7 carrying `AuxInt = 1`. -/
def fn5 : Fn :=
  { blocks := [2],
    blks := fun _ => ⟨.If, [], [3, 4], [], [5], 0⟩,
    vals := fun i =>
      if i = 7 then ⟨.ConstBool, [], 2, 1, 0, 0⟩ else ⟨.Other, [], 0, 0, 0, 0⟩,
    entry := 2,
    freshBase := 50 }

def st5 : SState :=
  { edges := [], uses := [], visited := [],
    cells := fun i => if i = 5 then ⟨.constant, some 7⟩ else latTop,
    newVals := [], nextVal := 50, installLog := [] }

/-- Witness for C5: the constant-true condition (AuxInt 1) enqueues exactly
the edge to successor 0. -/
theorem C5_propagate_if_witness : propagateEdges fn5 st5 2 = [(2, 3)] :=
  ((C5_propagate_if fn5 st5 2 5 3 4 rfl rfl rfl).2.1 7 (by decide)).2 (by decide)

/-- Division and modulo opcodes are in no other case list of `visitValue`:
not constants, not Copy, not Phi, and in the supported binary list. -/
theorem divMod_class : ∀ op : Op, isDivModOp op = true →
    isConst op = false ∧ op ≠ .Copy ∧ op ≠ .Phi ∧
      isSupportedBinOp op = true := by decide

theorem foldl_propagate_cells (f : Fn) (bs : List Nat) :
    ∀ s : SState, (bs.foldl (fun st b => propagate f st b) s).cells = s.cells := by
  induction bs with
  | nil => exact fun _ => rfl
  | cons b t ih =>
    intro s
    rw [List.foldl_cons, ih]
    rfl

theorem foldl_propagate_nextVal (f : Fn) (bs : List Nat) :
    ∀ s : SState,
      (bs.foldl (fun st b => propagate f st b) s).nextVal = s.nextVal := by
  induction bs with
  | nil => exact fun _ => rfl
  | cons b t ih =>
    intro s
    rw [List.foldl_cons, ih]
    rfl

theorem addUses_cells (f : Fn) (s : SState) (v : Nat) :
    (addUses f s v).cells = s.cells := by
  unfold addUses
  dsimp only
  rw [foldl_propagate_cells]

theorem addUses_nextVal (f : Fn) (s : SState) (v : Nat) :
    (addUses f s v).nextVal = s.nextVal := by
  unfold addUses
  dsimp only
  rw [foldl_propagate_nextVal]

/-- C7: a visit of a value whose opcode is a division or modulo, whose two
argument cells are constants, and whose divisor constant carries literal
zero, installs Bottom and never invokes the constant evaluator (the probe
allocator's counter is untouched). -/
theorem C7_div_by_zero_bottom (f : Fn) (s : SState) (v d : Nat)
    (hop : isDivModOp (f.vals v).op = true)
    (_h1 : (getLatticeCell s (argAt f v 0)).tag = .constant)
    (h2 : getLatticeCell s (argAt f v 1) = ⟨.constant, some d⟩)
    (hz : (valOf f s d).auxInt = 0) :
    getLatticeCell (visitValue f s v) v = latBot ∧
    (visitValue f s v).nextVal = s.nextVal := by
  rcases divMod_class _ hop with ⟨hnc, hncopy, hnphi, hsup⟩
  have hbody : visitValueBody f s v = setCell s v latBot := by
    unfold visitValueBody
    dsimp only
    rw [if_neg (by rw [hnc]; exact Bool.false_ne_true), if_neg hncopy,
      if_neg hnphi, if_pos hsup]
    rw [if_pos]
    right
    right
    show isDivByZero f s (f.vals v).op
      (getLatticeCell s ((f.vals v).args.getD 1 0)).val = true
    have h2' : getLatticeCell s ((f.vals v).args.getD 1 0) =
        ⟨.constant, some d⟩ := h2
    rw [h2']
    unfold isDivByZero
    rw [hop]
    simp [hz]
  unfold visitValue
  dsimp only
  rw [hbody]
  have hcell : getLatticeCell (setCell s v latBot) v = latBot := by
    rw [getLatticeCell, cells_setCell]
    simp
  constructor
  · split
    · rw [getLatticeCell, addUses_cells]
      rw [getLatticeCell] at hcell
      exact hcell
    · exact hcell
  · split
    · rw [addUses_nextVal]
      rfl
    · rfl

/-- A concrete division by a constant zero for the C7 witness:
value 20 is `Div32(21, 22)`, both argument cells are constants, and the
divisor node 22 carries literal 0. -/
def fn7 : Fn :=
  { blocks := [1],
    blks := fun _ => ⟨.Exit, [], [], [20, 21, 22], [], 0⟩,
    vals := fun i =>
      if i = 20 then ⟨.Div32, [21, 22], 1, 0, 0, 0⟩
      else if i = 21 then ⟨.Const32, [], 1, 10, 0, 1⟩
      else if i = 22 then ⟨.Const32, [], 1, 0, 0, 1⟩
      else ⟨.Other, [], 0, 0, 0, 0⟩,
    entry := 1,
    freshBase := 100 }

def st7 : SState :=
  { edges := [], uses := [], visited := [],
    cells := fun i =>
      if i = 21 then ⟨.constant, some 21⟩
      else if i = 22 then ⟨.constant, some 22⟩
      else latTop,
    newVals := [], nextVal := 100, installLog := [] }

/-- Witness for C7 at the concrete divide-by-zero. -/
theorem C7_div_by_zero_bottom_witness :
    getLatticeCell (visitValue fn7 st7 20) 20 = latBot ∧
    (visitValue fn7 st7 20).nextVal = st7.nextVal :=
  C7_div_by_zero_bottom fn7 st7 20 22 (by decide) (by decide) (by decide)
    (by decide)

/-- C3 counterexample: two invocations of the constant evaluator on the
same Add32 with the same constant arguments both match and produce nodes
with the same constant opcode and the same literal, yet the returned nodes
are different (`f.newValue` allocates a fresh node every call), refuting
pointer-identity canonicalization. -/
theorem C3_counterexample :
    (computeConstValue fn1 (initState fn1) 10 11 12).2.2 = true ∧
    (computeConstValue fn1
      (computeConstValue fn1 (initState fn1) 10 11 12).1 10 11 12).2.2 = true ∧
    (valOf fn1 (computeConstValue fn1
        (computeConstValue fn1 (initState fn1) 10 11 12).1 10 11 12).1
      (computeConstValue fn1 (initState fn1) 10 11 12).2.1).op =
    (valOf fn1 (computeConstValue fn1
        (computeConstValue fn1 (initState fn1) 10 11 12).1 10 11 12).1
      (computeConstValue fn1
        (computeConstValue fn1 (initState fn1) 10 11 12).1 10 11 12).2.1).op ∧
    (valOf fn1 (computeConstValue fn1
        (computeConstValue fn1 (initState fn1) 10 11 12).1 10 11 12).1
      (computeConstValue fn1 (initState fn1) 10 11 12).2.1).auxInt =
    (valOf fn1 (computeConstValue fn1
        (computeConstValue fn1 (initState fn1) 10 11 12).1 10 11 12).1
      (computeConstValue fn1
        (computeConstValue fn1 (initState fn1) 10 11 12).1 10 11 12).2.1).auxInt ∧
    (computeConstValue fn1 (initState fn1) 10 11 12).2.1 ≠
    (computeConstValue fn1
      (computeConstValue fn1 (initState fn1) 10 11 12).1 10 11 12).2.1 := by
  refine ⟨by decide, by decide, by decide, by decide, by decide⟩

/-- C3 (amended): the evaluator never canonicalizes: every invocation of
`computeConstValue` allocates a fresh probe node (the next free id, and
the allocation counter strictly increases), so two invocations never
return the same node — in particular Const-cell pointer equality implies
the cells come from the same invocation (or the same original constant),
and a pointer mismatch between equal literals merely descends to Bottom. -/
theorem C3_fresh_probe (f : Fn) (s : SState) (v a b v2 a2 b2 : Nat) :
    (computeConstValue f s v a b).2.1 = s.nextVal ∧
    ((computeConstValue f s v a b).1).nextVal = s.nextVal + 1 ∧
    (computeConstValue f (computeConstValue f s v a b).1 v2 a2 b2).2.1 ≠
      (computeConstValue f s v a b).2.1 := by
  refine ⟨rfl, rfl, ?_⟩
  show s.nextVal + 1 ≠ s.nextVal
  omega

theorem mem_foldl_insert (l : List Nat) :
    ∀ (ks0 : List Nat) (x : Nat),
      (x ∈ l.foldl (fun ks a => if a ∈ ks then ks else ks ++ [a]) ks0) ↔
        x ∈ ks0 ∨ x ∈ l := by
  induction l with
  | nil => simp
  | cons a t ih =>
    intro ks0 x
    rw [List.foldl_cons]
    by_cases h : a ∈ ks0
    · rw [if_pos h, ih]
      simp only [List.mem_cons]
      constructor
      · rintro (hx | hx)
        · exact Or.inl hx
        · exact Or.inr (Or.inr hx)
      · rintro (hx | rfl | hx)
        · exact Or.inl hx
        · exact Or.inl h
        · exact Or.inr hx
    · rw [if_neg h, ih]
      simp only [List.mem_append, List.mem_singleton, List.mem_cons]
      tauto

theorem mem_foldl_insert_vals (f : Fn) (vs : List Nat) :
    ∀ (ks0 : List Nat) (x : Nat),
      (x ∈ vs.foldl
        (fun ks v =>
          (f.vals v).args.foldl
            (fun ks a => if a ∈ ks then ks else ks ++ [a]) ks) ks0) ↔
        x ∈ ks0 ∨ ∃ v ∈ vs, x ∈ (f.vals v).args := by
  induction vs with
  | nil => simp
  | cons v t ih =>
    intro ks0 x
    rw [List.foldl_cons, ih, mem_foldl_insert]
    simp only [List.mem_cons]
    constructor
    · rintro ((hx | hx) | ⟨u, hu, hx⟩)
      · exact Or.inl hx
      · exact Or.inr ⟨v, Or.inl rfl, hx⟩
      · exact Or.inr ⟨u, Or.inr hu, hx⟩
    · rintro (hx | ⟨u, rfl | hu, hx⟩)
      · exact Or.inl (Or.inl hx)
      · exact Or.inl (Or.inr hx)
      · exact Or.inr ⟨u, hu, hx⟩

/-- The key set of the `defUse` map is exactly the set of values occurring
as an argument of some value listed in some block. -/
theorem mem_defUseKeys (f : Fn) (x : Nat) :
    x ∈ defUseKeys f ↔
      ∃ b ∈ f.blocks, ∃ v ∈ (f.blks b).values, x ∈ (f.vals v).args := by
  unfold defUseKeys
  have main : ∀ (bs : List Nat) (ks0 : List Nat),
      (x ∈ bs.foldl
        (fun ks b =>
          (f.blks b).values.foldl
            (fun ks v =>
              (f.vals v).args.foldl
                (fun ks a => if a ∈ ks then ks else ks ++ [a]) ks) ks) ks0) ↔
        x ∈ ks0 ∨ ∃ b ∈ bs, ∃ v ∈ (f.blks b).values, x ∈ (f.vals v).args := by
    intro bs
    induction bs with
    | nil => simp
    | cons b t ih =>
      intro ks0
      rw [List.foldl_cons, ih, mem_foldl_insert_vals]
      simp only [List.mem_cons]
      constructor
      · rintro ((hx | ⟨v, hv, hx⟩) | ⟨b', hb', rest⟩)
        · exact Or.inl hx
        · exact Or.inr ⟨b, Or.inl rfl, v, hv, hx⟩
        · exact Or.inr ⟨b', Or.inr hb', rest⟩
      · rintro (hx | ⟨b', rfl | hb', rest⟩)
        · exact Or.inl (Or.inl hx)
        · exact Or.inl (Or.inr rest)
        · exact Or.inr ⟨b', hb', rest⟩
  rw [main]
  simp

/-- C10 (amended): the def-use verification loop ranges over the keys of
the `defUse` map only, i.e. over the values that occur as an argument of
some value; the build completes normally if and only if every such value's
recorded use count equals `|defUse[v]| + |defBlock[v]|`.  Values that never
occur as an argument — used only as block controls, or unused — are not
checked at all. -/
theorem C10_check_covers_arg_uses (f : Fn) :
    buildDefUsesOk f = true ↔
      ∀ a : Nat,
        (∃ b ∈ f.blocks, ∃ v ∈ (f.blks b).values, a ∈ (f.vals v).args) →
        (f.vals a).usesCnt =
          (((defUseF f a).length + (defBlockF f a).length : Nat) : Int) := by
  unfold buildDefUsesOk
  rw [List.all_eq_true]
  constructor
  · intro h a ha
    have := h a ((mem_defUseKeys f a).mpr ha)
    exact of_decide_eq_true this
  · intro h a ha
    exact decide_eq_true (h a ((mem_defUseKeys f a).mp ha))

/-- Witness for C10 (amended) and counterexample input for C10 as stated:
block 1 is an If whose control value 31 is used only as a control, never
as an argument, and whose recorded use count (99) is stale. -/
def fnA : Fn :=
  { blocks := [1],
    blks := fun _ => ⟨.If, [], [], [31], [31], 0⟩,
    vals := fun i =>
      if i = 31 then ⟨.ConstBool, [], 1, 1, 0, 99⟩ else ⟨.Other, [], 0, 0, 0, 0⟩,
    entry := 1,
    freshBase := 100 }

/-- C10 counterexample: on `fnA` the build step completes normally
(`buildDefUsesOk` holds) although value 31 — a value of the function, used
as the control of block 1 — has a stale use count: 99 instead of
`|defUse[31]| + |defBlock[31]| = 0 + 1`.  The check is therefore not
applied to every value of the function, and completion does not imply
that no value has a mismatched use count. -/
theorem C10_counterexample :
    buildDefUsesOk fnA = true ∧
    31 ∈ (fnA.blks 1).values ∧ 31 ∈ (fnA.blks 1).ctrls ∧ 1 ∈ fnA.blocks ∧
    (fnA.vals 31).usesCnt ≠
      (((defUseF fnA 31).length + (defBlockF fnA 31).length : Nat) : Int) := by
  refine ⟨by decide, by decide, by decide, by decide, by decide⟩

/-- Witness for C10 (amended) at `fnA`: no value occurs as an argument, so
the check passes vacuously. -/
theorem C10_check_covers_arg_uses_witness : buildDefUsesOk fnA = true := by
  apply (C10_check_covers_arg_uses fnA).mpr
  intro a ha
  rcases ha with ⟨b, hb, v, hv, hargs⟩
  rcases List.mem_singleton.mp hb with rfl
  have hv' : v = 31 := by
    simpa [fnA] using hv
  subst hv'
  simp [fnA] at hargs

/-- All value ids of the function, in block-scan order. -/
def allValues (f : Fn) : List Nat :=
  f.blocks.foldl (fun acc b => acc ++ (f.blks b).values) []

/-- The mutable IR tables `replaceConst` rewrites in place. -/
structure IRState where
  vals : Nat → Val
  blks : Nat → Blk

/-- The φ-argument adjustment of `removeEdge`: delete argument slot `j`
of every value in `vs` whose opcode is `Phi`. -/
def phiArgErase (j : Nat) (vs : List Nat) (ir : IRState) : IRState :=
  vs.foldl
    (fun irr vv =>
      if (irr.vals vv).op = .Phi then
        { irr with vals := fun x =>
            if x = vv then
              { irr.vals vv with args := (irr.vals vv).args.eraseIdx j }
            else irr.vals x }
      else irr)
    ir

/-- Modelled from the spec (§4.8): `Block.removeEdge(i)`, which is not part
of src/.  It removes the `i`-th successor edge of `b`: the successor entry
is deleted from `b.Succs`, the corresponding predecessor entry (the
position of `b` in the destination's `Preds`) is deleted from the
destination, and every φ of the destination loses the argument slot of
that position.  If `b` has no `i`-th successor (Go would panic), nothing
changes. -/
def removeEdgeM (ir : IRState) (b : Nat) (i : Nat) : IRState :=
  match (ir.blks b).succs.get? i with
  | none => ir
  | some d =>
    let ir1 : IRState :=
      { ir with blks := fun x =>
          if x = b then { ir.blks b with succs := (ir.blks b).succs.eraseIdx i }
          else ir.blks x }
    let j := (ir1.blks d).preds.findIdx (fun p => p = b)
    let ir2 : IRState :=
      { ir1 with blks := fun x =>
          if x = d then { ir1.blks d with preds := (ir1.blks d).preds.eraseIdx j }
          else ir1.blks x }
    phiArgErase j ((ir2.blks d).values) ir2

/-- The per-block rewiring of `replaceConst` for one control block: an If
block loses the dead successor `i`, becomes Plain, clears its controls and
resets the branch likelihood; a JumpTable is left alone (TODO in the
source); any other kind is a fatal error in Go (modelled as no change). -/
def rewireBlock (i : Nat) (irr : IRState) (b : Nat) : IRState :=
  match (irr.blks b).kind with
  | .If =>
    let irr1 := removeEdgeM irr b i
    { irr1 with blks := fun x =>
        if x = b then
          { irr1.blks b with kind := .Plain, likely := 0, ctrls := [] }
        else irr1.blks x }
  | _ => irr

/-- One iteration of `replaceConst` for one value `v`: if `v`'s cell is a
constant and `v` is not already a constant opcode, reset `v` in place
(`val.reset(lt.val.Op); val.AuxInt = lt.val.AuxInt` — opcode and `AuxInt`
come from the constant node, the arguments are cleared, identity and type
stay), then rewire every block that has `v` as control. -/
def replStep (f : Fn) (s : SState) (ir : IRState) (v : Nat) : IRState :=
  if (s.cells v).tag = .constant ∧ isConst ((ir.vals v).op) = false then
    (defBlockF f v).foldl
      (rewireBlock (valOf f s ((s.cells v).val.getD 0)).auxInt.toNat)
      { ir with vals := fun x =>
          if x = v then
            { ir.vals v with
                op := (valOf f s ((s.cells v).val.getD 0)).op,
                auxInt := (valOf f s ((s.cells v).val.getD 0)).auxInt,
                args := [] }
          else ir.vals x }
  else ir

/-- `replaceConst`: apply `replStep` to every value of the function.
(Go ranges over the keys of `latticeCells` in map order; every key is a
listed value, values without an entry default to Top and are skipped, and
a value already rewritten is skipped by the `!isConst(val)` test, so
iterating the listed values is equivalent.) -/
def replaceConst (f : Fn) (s : SState) (ir : IRState) : IRState :=
  (allValues f).foldl (fun irr v => replStep f s irr v) ir

/-- The solver phase of `sccp(f)`. -/
def sccpState (f : Fn) (fuel : Nat) : SState := run f fuel (initState f)

/-- The whole pass: solve, then rewrite the function's own tables. -/
def sccpIR (f : Fn) (fuel : Nat) : IRState :=
  replaceConst f (sccpState f fuel) ⟨f.vals, f.blks⟩

/-- A function with a constant-controlled If: block 1 (entry, If) holds
`50 = Const32 1`, `51 = Const32 2`, `52 = Less32(50, 51)` (the control)
and `61` (an unfoldable value); block 2 is the live successor; block 3,
the dead successor, holds the φ `60 = Phi(61)`. -/
def fn9 : Fn :=
  { blocks := [1, 2, 3],
    blks := fun b =>
      if b = 1 then ⟨.If, [], [2, 3], [50, 51, 52, 61], [52], 0⟩
      else if b = 2 then ⟨.Exit, [1], [], [], [], 0⟩
      else if b = 3 then ⟨.Plain, [1], [], [60], [], 0⟩
      else ⟨.Invalid, [], [], [], [], 0⟩,
    vals := fun i =>
      if i = 50 then ⟨.Const32, [], 1, 1, 0, 1⟩
      else if i = 51 then ⟨.Const32, [], 1, 2, 0, 1⟩
      else if i = 52 then ⟨.Less32, [50, 51], 1, 0, 0, 1⟩
      else if i = 61 then ⟨.Other, [], 1, 0, 0, 1⟩
      else if i = 60 then ⟨.Phi, [61], 3, 0, 0, 0⟩
      else ⟨.Other, [], 0, 0, 0, 0⟩,
    entry := 1,
    freshBase := 100 }

/-- C9 counterexample: on `fn9` the φ value 60 keeps a Top cell (its block
is never reached), yet `replaceConst` deletes its argument slot while
rewiring the constant-controlled If block 1 — the value is not left
entirely unchanged. -/
theorem C9_counterexample :
    ((sccpState fn9 30).cells 60).tag = .top ∧
    (fn9.vals 60).args = [61] ∧
    ((sccpIR fn9 30).vals 60).args = [] := by
  refine ⟨by decide, by decide, by decide⟩

/-- All fields of a value except its argument list are unchanged, and the
arguments too unless the value is a φ. -/
def valsFrame (a b : Val) : Prop :=
  b.op = a.op ∧ b.auxInt = a.auxInt ∧ b.typ = a.typ ∧ b.block = a.block ∧
    b.usesCnt = a.usesCnt ∧ (a.op ≠ .Phi → b.args = a.args)

theorem valsFrame_refl (a : Val) : valsFrame a a :=
  ⟨rfl, rfl, rfl, rfl, rfl, fun _ => rfl⟩

theorem valsFrame_trans {a b c : Val} (h1 : valsFrame a b) (h2 : valsFrame b c) :
    valsFrame a c := by
  obtain ⟨o1, a1, t1, b1, u1, g1⟩ := h1
  obtain ⟨o2, a2, t2, b2, u2, g2⟩ := h2
  refine ⟨o2.trans o1, a2.trans a1, t2.trans t1, b2.trans b1, u2.trans u1, ?_⟩
  intro hp
  exact (g2 (by rw [o1]; exact hp)).trans (g1 hp)

/-- Kind, controls, likelihood and value list of a block are unchanged. -/
def blkFrame4 (a b : Blk) : Prop :=
  b.kind = a.kind ∧ b.ctrls = a.ctrls ∧ b.likely = a.likely ∧
    b.values = a.values

/-- `blkFrame4` and also the successor list unchanged. -/
def blkFrame5 (a b : Blk) : Prop := blkFrame4 a b ∧ b.succs = a.succs

theorem blkFrame4_refl (a : Blk) : blkFrame4 a a := ⟨rfl, rfl, rfl, rfl⟩

theorem blkFrame4_trans {a b c : Blk} (h1 : blkFrame4 a b)
    (h2 : blkFrame4 b c) : blkFrame4 a c :=
  ⟨h2.1.trans h1.1, h2.2.1.trans h1.2.1, h2.2.2.1.trans h1.2.2.1,
    h2.2.2.2.trans h1.2.2.2⟩

theorem blkFrame5_refl (a : Blk) : blkFrame5 a a := ⟨blkFrame4_refl a, rfl⟩

theorem blkFrame5_trans {a b c : Blk} (h1 : blkFrame5 a b)
    (h2 : blkFrame5 b c) : blkFrame5 a c :=
  ⟨blkFrame4_trans h1.1 h2.1, h2.2.trans h1.2⟩

theorem phiArgErase_blks (j : Nat) (vs : List Nat) :
    ∀ ir : IRState, (phiArgErase j vs ir).blks = ir.blks := by
  induction vs with
  | nil => exact fun _ => rfl
  | cons vv t ih =>
    intro ir
    unfold phiArgErase
    rw [List.foldl_cons]
    show (phiArgErase j t _).blks = _
    split
    · rw [ih]
    · rw [ih]

theorem phiArgErase_vals (j : Nat) (vs : List Nat) :
    ∀ (ir : IRState) (x : Nat),
      valsFrame (ir.vals x) ((phiArgErase j vs ir).vals x) := by
  induction vs with
  | nil => exact fun ir x => valsFrame_refl _
  | cons vv t ih =>
    intro ir x
    unfold phiArgErase
    rw [List.foldl_cons]
    show valsFrame _ ((phiArgErase j t _).vals x)
    split
    · rename_i hphi
      refine valsFrame_trans ?_ (ih _ x)
      dsimp only
      by_cases hx : x = vv
      · subst hx
        refine ⟨by simp, by simp, by simp, by simp, by simp, ?_⟩
        intro hnp
        exact absurd hphi hnp
      · simp [hx]
        exact valsFrame_refl _
    · exact ih ir x

theorem removeEdgeM_vals (ir : IRState) (b i : Nat) (x : Nat) :
    valsFrame (ir.vals x) ((removeEdgeM ir b i).vals x) := by
  unfold removeEdgeM
  split
  · exact valsFrame_refl _
  · exact phiArgErase_vals _ _ _ x

theorem removeEdgeM_blks (ir : IRState) (b i : Nat) (x : Nat) :
    blkFrame4 (ir.blks x) ((removeEdgeM ir b i).blks x) ∧
      (x ≠ b → ((removeEdgeM ir b i).blks x).succs = (ir.blks x).succs) := by
  unfold removeEdgeM
  split
  · exact ⟨blkFrame4_refl _, fun _ => rfl⟩
  · rename_i d hget
    rw [phiArgErase_blks]
    dsimp only
    constructor
    · by_cases hxd : x = d <;> by_cases hxb : x = b
      · have hdb : d = b := by rw [← hxd, hxb]
        simp [blkFrame4, hxd, hxb, hdb]
      · have hdb : ¬ d = b := by rw [← hxd]; exact hxb
        simp [blkFrame4, hxd, hdb]
      · have hdb : ¬ d = b := fun h => hxd (by rw [hxb, ← h])
        have hbd : ¬ b = d := fun h => hdb h.symm
        simp [blkFrame4, hxd, hxb, hdb, hbd]
      · simp [blkFrame4, hxd, hxb]
    · intro hxb
      by_cases hxd : x = d
      · have hdb : ¬ d = b := by rw [← hxd]; exact hxb
        simp [hxd, hxb, hdb]
      · simp [hxd, hxb]

theorem removeEdgeM_succs_self (ir : IRState) (b i d : Nat)
    (hget : (ir.blks b).succs.get? i = some d) :
    ((removeEdgeM ir b i).blks b).succs = (ir.blks b).succs.eraseIdx i := by
  unfold removeEdgeM
  rw [hget]
  rw [phiArgErase_blks]
  dsimp only
  by_cases hbd : b = d
  · subst hbd
    simp
  · have hdb : ¬ d = b := fun h => hbd h.symm
    simp [hbd, hdb]

theorem rewireBlock_vals (i : Nat) (irr : IRState) (bb x : Nat) :
    valsFrame (irr.vals x) ((rewireBlock i irr bb).vals x) := by
  unfold rewireBlock
  split
  · exact removeEdgeM_vals irr bb i x
  · exact valsFrame_refl _

theorem rewireBlock_blks_other (i : Nat) (irr : IRState) (bb x : Nat)
    (hx : x ≠ bb) :
    blkFrame5 (irr.blks x) ((rewireBlock i irr bb).blks x) := by
  unfold rewireBlock
  split
  · dsimp only
    rw [if_neg hx]
    exact ⟨(removeEdgeM_blks irr bb i x).1, (removeEdgeM_blks irr bb i x).2 hx⟩
  · exact blkFrame5_refl _

theorem rewireBlock_skip (i : Nat) (irr : IRState) (bb : Nat)
    (hk : (irr.blks bb).kind ≠ .If) : rewireBlock i irr bb = irr := by
  unfold rewireBlock
  split
  · rename_i hkk
    exact absurd hkk hk
  · rfl

theorem rewireFold_vals (i : Nat) (L : List Nat) :
    ∀ (irr : IRState) (x : Nat),
      valsFrame (irr.vals x) ((L.foldl (rewireBlock i) irr).vals x) := by
  induction L with
  | nil => exact fun irr x => valsFrame_refl _
  | cons bb t ih =>
    intro irr x
    rw [List.foldl_cons]
    exact valsFrame_trans (rewireBlock_vals i irr bb x) (ih _ x)

theorem rewireFold_blks_not_mem (i : Nat) (L : List Nat) (b : Nat)
    (hb : b ∉ L) :
    ∀ irr : IRState, blkFrame5 (irr.blks b) ((L.foldl (rewireBlock i) irr).blks b) := by
  induction L with
  | nil => exact fun irr => blkFrame5_refl _
  | cons bb t ih =>
    intro irr
    rw [List.foldl_cons]
    have hne : b ≠ bb := fun h => hb (h ▸ List.mem_cons_self bb t)
    exact blkFrame5_trans (rewireBlock_blks_other i irr bb b hne)
      (ih (fun h => hb (List.mem_cons_of_mem bb h)) _)

theorem rewireFold_preserve (i : Nat) (L : List Nat) (b : Nat) :
    ∀ irr : IRState, (irr.blks b).kind ≠ .If →
      blkFrame5 (irr.blks b) ((L.foldl (rewireBlock i) irr).blks b) := by
  induction L with
  | nil => exact fun irr _ => blkFrame5_refl _
  | cons bb t ih =>
    intro irr hk
    rw [List.foldl_cons]
    by_cases hbb : b = bb
    · rw [← hbb, rewireBlock_skip i irr b hk]
      exact ih irr hk
    · have h5 := rewireBlock_blks_other i irr bb b hbb
      refine blkFrame5_trans h5 (ih _ ?_)
      rw [h5.1.1]
      exact hk

theorem rewireFold_fire (i : Nat) (L : List Nat) (b : Nat) :
    ∀ (irr : IRState) (d : Nat), b ∈ L →
      (irr.blks b).kind = .If →
      (irr.blks b).succs.get? i = some d →
      blkFrame4
        { irr.blks b with
            kind := .Plain, likely := 0, ctrls := [],
            succs := (irr.blks b).succs.eraseIdx i }
        ((L.foldl (rewireBlock i) irr).blks b) ∧
      ((L.foldl (rewireBlock i) irr).blks b).succs =
        (irr.blks b).succs.eraseIdx i := by
  induction L with
  | nil => intro irr d h; cases h
  | cons bb t ih =>
    intro irr d hmem hkind hget
    rw [List.foldl_cons]
    by_cases hbb : bb = b
    · subst hbb
      have hstep : ((rewireBlock i irr bb).blks bb).kind = .Plain ∧
          ((rewireBlock i irr bb).blks bb).succs =
            (irr.blks bb).succs.eraseIdx i ∧
          ((rewireBlock i irr bb).blks bb).ctrls = [] ∧
          ((rewireBlock i irr bb).blks bb).likely = 0 ∧
          ((rewireBlock i irr bb).blks bb).values = (irr.blks bb).values := by
        unfold rewireBlock
        rw [hkind]
        dsimp only
        rw [if_pos rfl]
        refine ⟨rfl, ?_, rfl, rfl, ?_⟩
        · exact removeEdgeM_succs_self irr bb i d hget
        · exact ((removeEdgeM_blks irr bb i bb).1).2.2.2
      have hpres := rewireFold_preserve i t bb (rewireBlock i irr bb)
        (by rw [hstep.1]; intro h; cases h)
      constructor
      · refine blkFrame4_trans ?_ hpres.1
        exact ⟨hstep.1, hstep.2.2.1, hstep.2.2.2.1, hstep.2.2.2.2⟩
      · rw [hpres.2, hstep.2.1]
    · have hne : b ≠ bb := fun h => hbb h.symm
      have h5 := rewireBlock_blks_other i irr bb b hne
      have hmem' : b ∈ t := by
        rcases List.mem_cons.mp hmem with h | h
        · exact absurd h.symm hbb
        · exact h
      have ihr := ih (rewireBlock i irr bb) d hmem'
        (by rw [h5.1.1]; exact hkind) (by rw [h5.2]; exact hget)
      constructor
      · exact ⟨ihr.1.1, ihr.1.2.1, ihr.1.2.2.1, ihr.1.2.2.2.trans h5.1.2.2.2⟩
      · rw [ihr.2, h5.2]

theorem replStep_skip (f : Fn) (s : SState) (ir : IRState) (v : Nat)
    (h : ¬ ((s.cells v).tag = .constant ∧ isConst ((ir.vals v).op) = false)) :
    replStep f s ir v = ir := by
  unfold replStep
  rw [if_neg h]

theorem replStep_vals_frame (f : Fn) (s : SState) (ir : IRState) (v x : Nat)
    (hx : x ≠ v) : valsFrame (ir.vals x) ((replStep f s ir v).vals x) := by
  unfold replStep
  split
  · refine valsFrame_trans ?_ (rewireFold_vals _ _ _ x)
    simp only [hx, if_false]
    exact valsFrame_refl _
  · exact valsFrame_refl _

theorem replStep_blks_frame (f : Fn) (s : SState) (ir : IRState) (v b : Nat)
    (hb : b ∉ defBlockF f v) :
    blkFrame5 (ir.blks b) ((replStep f s ir v).blks b) := by
  unfold replStep
  split
  · exact rewireFold_blks_not_mem _ _ b hb _
  · exact blkFrame5_refl _

theorem mem_appendAt (m : Nat → List Nat) (k v y x : Nat) :
    x ∈ appendAt m k v y ↔ x ∈ m y ∨ (y = k ∧ x = v) := by
  unfold appendAt
  by_cases h : y = k
  · subst h
    simp
  · simp [h]

theorem mem_foldl_ctrls (cs : List Nat) (bb : Nat) :
    ∀ (m : Nat → List Nat) (w b : Nat),
      (b ∈ (cs.foldl (fun m c => appendAt m c bb) m) w) ↔
        b ∈ m w ∨ (w ∈ cs ∧ b = bb) := by
  induction cs with
  | nil => simp
  | cons c t ih =>
    intro m w b
    rw [List.foldl_cons, ih, mem_appendAt]
    simp only [List.mem_cons]
    constructor
    · rintro ((h | h) | h)
      · exact Or.inl h
      · exact Or.inr ⟨Or.inl h.1, h.2⟩
      · exact Or.inr ⟨Or.inr h.1, h.2⟩
    · rintro (h | ⟨(h1 | h1), h2⟩)
      · exact Or.inl (Or.inl h)
      · exact Or.inl (Or.inr ⟨h1, h2⟩)
      · exact Or.inr ⟨h1, h2⟩

/-- `defBlock` membership: `b ∈ defBlock[w]` iff `b` is a listed block with
`w` among its control values. -/
theorem mem_defBlockF (f : Fn) (w b : Nat) :
    b ∈ defBlockF f w ↔ b ∈ f.blocks ∧ w ∈ (f.blks b).ctrls := by
  unfold defBlockF
  have main : ∀ (bs : List Nat) (m : Nat → List Nat),
      (b ∈ (bs.foldl
        (fun m bb => (f.blks bb).ctrls.foldl (fun m c => appendAt m c bb) m)
        m) w) ↔
        b ∈ m w ∨ ∃ bb ∈ bs, w ∈ (f.blks bb).ctrls ∧ b = bb := by
    intro bs
    induction bs with
    | nil => simp
    | cons bb t ih =>
      intro m
      rw [List.foldl_cons, ih, mem_foldl_ctrls]
      simp only [List.mem_cons]
      constructor
      · rintro ((h | h) | ⟨b', hb', hw, rfl⟩)
        · exact Or.inl h
        · exact Or.inr ⟨bb, Or.inl rfl, h.1, h.2⟩
        · exact Or.inr ⟨b, Or.inr hb', hw, rfl⟩
      · rintro (h | ⟨b', rfl | hb', hw, rfl⟩)
        · exact Or.inl (Or.inl h)
        · exact Or.inl (Or.inr ⟨hw, rfl⟩)
        · exact Or.inr ⟨b, hb', hw, rfl⟩
  rw [main]
  simp only [List.not_mem_nil, false_or]
  constructor
  · rintro ⟨bb, hbb, hw, rfl⟩
    exact ⟨hbb, hw⟩
  · rintro ⟨hbb, hw⟩
    exact ⟨b, hbb, hw, rfl⟩

/-- C9 (amended): `replaceConst` resets (opcode, `AuxInt`, arguments) only
values whose cell is `Const`; a value whose cell is Top or Bottom —
including any value in a never-visited block, whose cell defaults to Top —
keeps its opcode, `AuxInt`, type, block and use count, and, unless it is a
φ, its argument list as well.  (A φ with a Top or Bottom cell can still
lose argument slots when `removeEdge` fires on a predecessor — see the
counterexample.) -/
theorem C9_replaceConst_frame (f : Fn) (s : SState) (v : Nat)
    (hv : (s.cells v).tag ≠ .constant) :
    valsFrame (f.vals v) ((replaceConst f s ⟨f.vals, f.blks⟩).vals v) := by
  unfold replaceConst
  have main : ∀ (L : List Nat) (ir : IRState),
      valsFrame (f.vals v) (ir.vals v) →
      valsFrame (f.vals v) ((L.foldl (fun irr u => replStep f s irr u) ir).vals v) := by
    intro L
    induction L with
    | nil => exact fun ir h => h
    | cons u t ih =>
      intro ir h
      rw [List.foldl_cons]
      apply ih
      by_cases hu : u = v
      · subst hu
        rw [replStep_skip f s ir u (by rintro ⟨hc, -⟩; exact hv hc)]
        exact h
      · exact valsFrame_trans h
          (replStep_vals_frame f s ir u v (fun hh => hu hh.symm))
  exact main (allValues f) ⟨f.vals, f.blks⟩ (valsFrame_refl _)

theorem isConst_ne_phi : ∀ op : Op, isConst op = true → op ≠ .Phi := by decide

theorem IR_update_vals_self (ir : IRState) (v : Nat) (A : Val) :
    ({ ir with vals := fun x => if x = v then A else ir.vals x } : IRState).vals v
      = A := by
  simp

theorem foldl_replStep_vals_frame (f : Fn) (s : SState) (L : List Nat)
    (x : Nat) (hx : x ∉ L) :
    ∀ ir : IRState,
      valsFrame (ir.vals x)
        ((L.foldl (fun irr u => replStep f s irr u) ir).vals x) := by
  induction L with
  | nil => exact fun ir => valsFrame_refl _
  | cons u t ih =>
    intro ir
    rw [List.foldl_cons]
    have hxu : x ≠ u := fun h => hx (h ▸ List.mem_cons_self u t)
    exact valsFrame_trans (replStep_vals_frame f s ir u x hxu)
      (ih (fun h => hx (List.mem_cons_of_mem u h)) _)

theorem foldl_replStep_blks_frame (f : Fn) (s : SState) (L : List Nat)
    (b : Nat) (hb : ∀ u ∈ L, b ∉ defBlockF f u) :
    ∀ ir : IRState,
      blkFrame5 (ir.blks b)
        ((L.foldl (fun irr u => replStep f s irr u) ir).blks b) := by
  induction L with
  | nil => exact fun ir => blkFrame5_refl _
  | cons u t ih =>
    intro ir
    rw [List.foldl_cons]
    exact blkFrame5_trans
      (replStep_blks_frame f s ir u b (hb u (List.mem_cons_self u t)))
      (ih (fun u' hu' => hb u' (List.mem_cons_of_mem u hu')) _)

/-- One firing iteration of `replaceConst`: the value is reset from the
constant node and the controlled If block is rewired. -/
theorem replStep_fire (f : Fn) (s : SState) (ir : IRState)
    (v k b s0 s1 : Nat)
    (hcell : s.cells v = ⟨.constant, some k⟩)
    (hnc : isConst ((ir.vals v).op) = false)
    (hkc : isConst ((valOf f s k).op) = true)
    (hbmem : b ∈ defBlockF f v)
    (hbk : (ir.blks b).kind = .If)
    (hsuc : (ir.blks b).succs = [s0, s1])
    (haux : (valOf f s k).auxInt = 0 ∨ (valOf f s k).auxInt = 1) :
    ((replStep f s ir v).vals v).op = (valOf f s k).op ∧
    ((replStep f s ir v).vals v).auxInt = (valOf f s k).auxInt ∧
    ((replStep f s ir v).vals v).args = [] ∧
    ((replStep f s ir v).vals v).typ = (ir.vals v).typ ∧
    ((replStep f s ir v).blks b).kind = .Plain ∧
    ((replStep f s ir v).blks b).succs =
      (ir.blks b).succs.eraseIdx (valOf f s k).auxInt.toNat ∧
    ((replStep f s ir v).blks b).ctrls = [] ∧
    ((replStep f s ir v).blks b).likely = 0 := by
  have hkv : (s.cells v).val.getD 0 = k := by rw [hcell]; rfl
  unfold replStep
  rw [if_pos ⟨by rw [hcell], hnc⟩, hkv]
  have hgd : ∃ d, ([s0, s1].get? (valOf f s k).auxInt.toNat) = some d := by
    rcases haux with h | h
    · rw [h]
      exact ⟨s0, rfl⟩
    · rw [h]
      exact ⟨s1, rfl⟩
  rcases hgd with ⟨d, hget⟩
  have hfire := rewireFold_fire ((valOf f s k).auxInt.toNat) (defBlockF f v) b
    ({ ir with vals := fun x =>
        if x = v then
          { ir.vals v with
              op := (valOf f s k).op,
              auxInt := (valOf f s k).auxInt,
              args := [] }
        else ir.vals x })
    d hbmem (by exact hbk) (by rw [show ({ ir with vals := _ } : IRState).blks b = ir.blks b from rfl, hsuc]; exact hget)
  have hvals := rewireFold_vals ((valOf f s k).auxInt.toNat) (defBlockF f v)
    ({ ir with vals := fun x =>
        if x = v then
          { ir.vals v with
              op := (valOf f s k).op,
              auxInt := (valOf f s k).auxInt,
              args := [] }
        else ir.vals x }) v
  rw [IR_update_vals_self] at hvals
  refine ⟨hvals.1, hvals.2.1, ?_, hvals.2.2.1, hfire.1.1, hfire.2, hfire.1.2.1,
    hfire.1.2.2.1⟩
  exact hvals.2.2.2.2.2 (isConst_ne_phi _ hkc)

/-- C6: after the fixed point, for a value `v` whose cell is `Const(k)` and
whose opcode is not a constant opcode, `replaceConst` resets `v` in place —
its opcode becomes `k`'s opcode, its `AuxInt` is copied from `k`, its
arguments are cleared, its identity and type are preserved — and an If
block controlled by `v` loses the successor edge at index `k.AuxInt`,
becomes a Plain block with a single successor, and has its control values
cleared and its branch likelihood reset. -/
theorem C6_replaceConst_rewrites (f : Fn) (s : SState)
    (v k b s0 s1 : Nat) (l1 l2 : List Nat)
    (hsplit : allValues f = l1 ++ v :: l2)
    (hv1 : v ∉ l1) (hv2 : v ∉ l2)
    (hcell : s.cells v = ⟨.constant, some k⟩)
    (hnc : isConst ((f.vals v).op) = false)
    (hkc : isConst ((valOf f s k).op) = true)
    (hbm : b ∈ f.blocks)
    (hbk : (f.blks b).kind = .If)
    (hctrl : (f.blks b).ctrls = [v])
    (hsuc : (f.blks b).succs = [s0, s1])
    (haux : (valOf f s k).auxInt = 0 ∨ (valOf f s k).auxInt = 1) :
    ((replaceConst f s ⟨f.vals, f.blks⟩).vals v).op = (valOf f s k).op ∧
    ((replaceConst f s ⟨f.vals, f.blks⟩).vals v).auxInt =
      (valOf f s k).auxInt ∧
    ((replaceConst f s ⟨f.vals, f.blks⟩).vals v).args = [] ∧
    ((replaceConst f s ⟨f.vals, f.blks⟩).vals v).typ = (f.vals v).typ ∧
    ((replaceConst f s ⟨f.vals, f.blks⟩).blks b).kind = .Plain ∧
    ((replaceConst f s ⟨f.vals, f.blks⟩).blks b).succs =
      (f.blks b).succs.eraseIdx (valOf f s k).auxInt.toNat ∧
    ((replaceConst f s ⟨f.vals, f.blks⟩).blks b).succs.length = 1 ∧
    ((replaceConst f s ⟨f.vals, f.blks⟩).blks b).ctrls = [] ∧
    ((replaceConst f s ⟨f.vals, f.blks⟩).blks b).likely = 0 := by
  have hnotb : ∀ u : Nat, u ≠ v → b ∉ defBlockF f u := by
    intro u hu hmem
    rcases (mem_defBlockF f u b).mp hmem with ⟨-, hctl⟩
    rw [hctrl] at hctl
    exact hu (List.mem_singleton.mp hctl)
  unfold replaceConst
  rw [hsplit, List.foldl_append, List.foldl_cons]
  have h1v := foldl_replStep_vals_frame f s l1 v hv1 ⟨f.vals, f.blks⟩
  have h1b := foldl_replStep_blks_frame f s l1 b
    (fun u hu => hnotb u (fun h => hv1 (h ▸ hu))) ⟨f.vals, f.blks⟩
  have hfire := replStep_fire f s
    (l1.foldl (fun irr u => replStep f s irr u) ⟨f.vals, f.blks⟩)
    v k b s0 s1 hcell (by rw [h1v.1]; exact hnc) hkc
    ((mem_defBlockF f v b).mpr ⟨hbm, by rw [hctrl]; exact List.mem_singleton_self v⟩)
    (by rw [h1b.1.1]; exact hbk) (by rw [h1b.2]; exact hsuc) haux
  have h3v := foldl_replStep_vals_frame f s l2 v hv2
    (replStep f s (l1.foldl (fun irr u => replStep f s irr u) ⟨f.vals, f.blks⟩) v)
  have h3b := foldl_replStep_blks_frame f s l2 b
    (fun u hu => hnotb u (fun h => hv2 (h ▸ hu)))
    (replStep f s (l1.foldl (fun irr u => replStep f s irr u) ⟨f.vals, f.blks⟩) v)
  have hsuccs :
      ((l2.foldl (fun irr u => replStep f s irr u)
        (replStep f s (l1.foldl (fun irr u => replStep f s irr u)
          ⟨f.vals, f.blks⟩) v)).blks b).succs =
        (f.blks b).succs.eraseIdx (valOf f s k).auxInt.toNat := by
    rw [h3b.2, hfire.2.2.2.2.2.1, h1b.2]
  refine ⟨?_, ?_, ?_, ?_, ?_, hsuccs, ?_, ?_, ?_⟩
  · rw [h3v.1, hfire.1]
  · rw [h3v.2.1, hfire.2.1]
  · rw [h3v.2.2.2.2.2 (by rw [hfire.1]; exact isConst_ne_phi _ hkc),
      hfire.2.2.1]
  · rw [h3v.2.2.1, hfire.2.2.2.1, h1v.2.2.1]
  · rw [h3b.1.1, hfire.2.2.2.2.1]
  · rw [hsuccs, hsuc]
    rcases haux with h | h <;> rw [h] <;> rfl
  · rw [h3b.1.2.1, hfire.2.2.2.2.2.2.1]
  · rw [h3b.1.2.2.1, hfire.2.2.2.2.2.2.2]

/-- Witness for C6 on the concrete run of `fn9`: value 52's cell is
`Const(102)` (a folded `ConstBool` probe with `AuxInt` 1), the If block 1
is controlled by 52 with successors `[2, 3]`. -/
theorem C6_replaceConst_rewrites_witness :
    ((replaceConst fn9 (sccpState fn9 30) ⟨fn9.vals, fn9.blks⟩).vals 52).op =
      (valOf fn9 (sccpState fn9 30) 102).op ∧
    ((replaceConst fn9 (sccpState fn9 30) ⟨fn9.vals, fn9.blks⟩).blks 1).kind =
      .Plain := by
  have h := C6_replaceConst_rewrites fn9 (sccpState fn9 30) 52 102 1 2 3
    [50, 51] [61, 60] (by decide) (by decide) (by decide) (by decide)
    (by decide) (by decide) (by decide) (by decide) (by decide) (by decide)
    (by decide)
  exact ⟨h.1, h.2.2.2.2.1⟩

/-- Witness for C9 (amended) on the concrete run of `fn9`: value 61's cell
is Bottom, and its opcode, `AuxInt`, type and arguments survive the
rewrite. -/
theorem C9_replaceConst_frame_witness :
    valsFrame (fn9.vals 61)
      ((replaceConst fn9 (sccpState fn9 30) ⟨fn9.vals, fn9.blks⟩).vals 61) :=
  C9_replaceConst_frame fn9 (sccpState fn9 30) 61 (by decide)

theorem forall2_exists_right {R : lattice → lattice → Prop} :
    ∀ {l l' : List lattice}, List.Forall₂ R l l' → ∀ a ∈ l, ∃ b ∈ l', R a b := by
  intro l l' h
  induction h with
  | nil => intro a ha; cases ha
  | cons hr _ ih =>
    intro a ha
    rcases List.mem_cons.mp ha with rfl | ha'
    · exact ⟨_, List.mem_cons_self _ _, hr⟩
    · rcases ih a ha' with ⟨b, hb, hrb⟩
      exact ⟨b, List.mem_cons_of_mem _ hb, hrb⟩

theorem forall2_exists_left {R : lattice → lattice → Prop} :
    ∀ {l l' : List lattice}, List.Forall₂ R l l' → ∀ b ∈ l', ∃ a ∈ l, R a b := by
  intro l l' h
  induction h with
  | nil => intro b hb; cases hb
  | cons hr _ ih =>
    intro b hb
    rcases List.mem_cons.mp hb with rfl | hb'
    · exact ⟨_, List.mem_cons_self _ _, hr⟩
    · rcases ih b hb' with ⟨a, ha, hra⟩
      exact ⟨a, List.mem_cons_of_mem _ ha, hra⟩

/-- Replacing some elements of a list by the list's own meet does not
change the meet.  This is why a φ that reads its own just-installed cell
through a self-referential argument stays consistent. -/
theorem meet_stable (l l' : List lattice)
    (hR : List.Forall₂ (fun a b => b = a ∨ b = meet l) l l') :
    meet l' = meet l := by
  rcases meet_shape l with hs | hs | ⟨p, hs⟩
  · rw [hs]
    rw [meet_eq_top_iff] at hs ⊢
    intro b hb
    rcases forall2_exists_left hR b hb with ⟨a, ha, hab | hbw⟩
    · rw [hab]
      exact hs a ha
    · rw [hbw, (meet_eq_top_iff l).mpr hs]
      rfl
  · rw [hs]
    rw [meet_eq_bottom_iff] at hs ⊢
    rcases hs with ⟨a, ha, hab⟩ | ⟨a1, ha1, a2, ha2, hc1, hc2, hne⟩
    · rcases forall2_exists_right hR a ha with ⟨b, hb, hba | hbw⟩
      · exact Or.inl ⟨b, hb, by rw [hba]; exact hab⟩
      · refine Or.inl ⟨b, hb, ?_⟩
        rw [hbw, (meet_eq_bottom_iff l).mpr (Or.inl ⟨a, ha, hab⟩)]
        rfl
    · have hlB : meet l = latBot :=
        (meet_eq_bottom_iff l).mpr (Or.inr ⟨a1, ha1, a2, ha2, hc1, hc2, hne⟩)
      rcases forall2_exists_right hR a1 ha1 with ⟨b1, hb1, hb1a | hb1w⟩
      · rcases forall2_exists_right hR a2 ha2 with ⟨b2, hb2, hb2a | hb2w⟩
        · exact Or.inr ⟨b1, hb1, b2, hb2, by rw [hb1a]; exact hc1,
            by rw [hb2a]; exact hc2, by rw [hb1a, hb2a]; exact hne⟩
        · exact Or.inl ⟨b2, hb2, by rw [hb2w, hlB]; rfl⟩
      · exact Or.inl ⟨b1, hb1, by rw [hb1w, hlB]; rfl⟩
  · rw [hs]
    rw [meet_eq_const_iff] at hs ⊢
    rcases hs with ⟨hnb, ⟨a, ha, hca⟩, hall⟩
    have hlC : meet l = ⟨.constant, p⟩ :=
      (meet_eq_const_iff l p).mpr ⟨hnb, ⟨a, ha, hca⟩, hall⟩
    refine ⟨?_, ?_, ?_⟩
    · rintro ⟨b, hb, hbB⟩
      rcases forall2_exists_left hR b hb with ⟨a', ha', hba | hbw⟩
      · exact hnb ⟨a', ha', by rw [← hba]; exact hbB⟩
      · rw [hbw, hlC] at hbB
        cases hbB
    · rcases forall2_exists_right hR a ha with ⟨b, hb, hba | hbw⟩
      · exact ⟨b, hb, by rw [hba]; exact hca⟩
      · exact ⟨b, hb, by rw [hbw, hlC]⟩
    · intro b hb hcb
      rcases forall2_exists_left hR b hb with ⟨a', ha', hba | hbw⟩
      · rw [hba]
        exact hall a' ha' (by rw [← hba]; exact hcb)
      · rw [hbw, hlC]

theorem forall2_filterMap (R : lattice → lattice → Prop) :
    ∀ (l : List Nat) (g g' : Nat → Option lattice),
      (∀ i ∈ l, (g i = none ∧ g' i = none) ∨
        (∃ a b, g i = some a ∧ g' i = some b ∧ R a b)) →
      List.Forall₂ R (l.filterMap g) (l.filterMap g') := by
  intro l
  induction l with
  | nil => intro g g' _; exact List.Forall₂.nil
  | cons i t ih =>
    intro g g' h
    rcases h i (List.mem_cons_self i t) with ⟨hg, hg'⟩ | ⟨a, b, hg, hg', hr⟩
    · rw [List.filterMap_cons, List.filterMap_cons, hg, hg']
      exact ih g g' (fun j hj => h j (List.mem_cons_of_mem i hj))
    · rw [List.filterMap_cons, List.filterMap_cons, hg, hg']
      exact List.Forall₂.cons hr (ih g g' (fun j hj => h j (List.mem_cons_of_mem i hj)))

/-- After installing `w` on `y` itself, every φ-argument cell of `y` is
either unchanged or replaced by `w`. -/
theorem phiArgCells_setCell_self (f : Fn) (s : SState) (y : Nat) (w : lattice) :
    List.Forall₂ (fun a b => b = a ∨ b = w)
      (phiArgCells f s y) (phiArgCells f (setCell s y w) y) := by
  unfold phiArgCells
  apply forall2_filterMap
  intro i _
  by_cases hv : (((f.blks (f.vals y).block).preds.getD i 0 : Nat),
      (f.vals y).block) ∈ s.visited
  · right
    rw [if_pos (by exact hv), if_pos (by exact hv)]
    refine ⟨_, _, rfl, rfl, ?_⟩
    rw [getLatticeCell, cells_setCell]
    dsimp only
    by_cases ha : (f.vals y).args.getD i 0 = y
    · rw [if_pos ha]
      exact Or.inr rfl
    · rw [if_neg ha]
      exact Or.inl rfl
  · left
    rw [if_neg (by exact hv), if_neg (by exact hv)]
    exact ⟨rfl, rfl⟩

/-- φ-argument cells only depend on the visited set and the cells of the
argument positions. -/
theorem phiArgCells_congr (f : Fn) (s s' : SState) (y : Nat)
    (hvis : ∀ e : SEdge, e.2 = (f.vals y).block → (e ∈ s'.visited ↔ e ∈ s.visited))
    (hcells : ∀ i, i < (f.vals y).args.length →
      s'.cells ((f.vals y).args.getD i 0) = s.cells ((f.vals y).args.getD i 0)) :
    phiArgCells f s' y = phiArgCells f s y := by
  unfold phiArgCells
  apply List.filterMap_congr
  intro i hi
  have hi' : i < (f.vals y).args.length := List.mem_range.mp hi
  have hiff := hvis (((f.blks (f.vals y).block).preds.getD i 0 : Nat),
      (f.vals y).block) rfl
  by_cases hv : (((f.blks (f.vals y).block).preds.getD i 0 : Nat),
      (f.vals y).block) ∈ s.visited
  · rw [if_pos (by exact hiff.mpr hv), if_pos (by exact hv)]
    rw [getLatticeCell, getLatticeCell, hcells i hi']
  · rw [if_neg (by exact fun h => hv (hiff.mp h)), if_neg (by exact hv)]

/-- `defUse` membership: `u ∈ defUse[a]` iff `u` is a listed value with `a`
among its arguments. -/
theorem mem_defUseF (f : Fn) (a u : Nat) :
    u ∈ defUseF f a ↔
      ∃ b ∈ f.blocks, ∃ v ∈ (f.blks b).values, a ∈ (f.vals v).args ∧ u = v := by
  unfold defUseF
  have mid : ∀ (vs : List Nat) (m : Nat → List Nat),
      (u ∈ (vs.foldl
        (fun m v => (f.vals v).args.foldl (fun m a' => appendAt m a' v) m) m) a) ↔
        u ∈ m a ∨ ∃ v ∈ vs, a ∈ (f.vals v).args ∧ u = v := by
    intro vs
    induction vs with
    | nil => simp
    | cons v t ih =>
      intro m
      rw [List.foldl_cons, ih, mem_foldl_ctrls]
      simp only [List.mem_cons]
      constructor
      · rintro ((h | h) | ⟨v', hv', hav, rfl⟩)
        · exact Or.inl h
        · exact Or.inr ⟨v, Or.inl rfl, h.1, h.2⟩
        · exact Or.inr ⟨u, Or.inr hv', hav, rfl⟩
      · rintro (h | ⟨v', rfl | hv', hav, rfl⟩)
        · exact Or.inl (Or.inl h)
        · exact Or.inl (Or.inr ⟨hav, rfl⟩)
        · exact Or.inr ⟨u, hv', hav, rfl⟩
  have main : ∀ (bs : List Nat) (m : Nat → List Nat),
      (u ∈ (bs.foldl
        (fun m b =>
          (f.blks b).values.foldl
            (fun m v => (f.vals v).args.foldl (fun m a' => appendAt m a' v) m) m)
        m) a) ↔
        u ∈ m a ∨ ∃ b ∈ bs, ∃ v ∈ (f.blks b).values, a ∈ (f.vals v).args ∧ u = v := by
    intro bs
    induction bs with
    | nil => simp
    | cons b t ih =>
      intro m
      rw [List.foldl_cons, ih, mid]
      simp only [List.mem_cons]
      constructor
      · rintro ((h | h) | ⟨b', hb', rest⟩)
        · exact Or.inl h
        · exact Or.inr ⟨b, Or.inl rfl, h⟩
        · exact Or.inr ⟨b', Or.inr hb', rest⟩
      · rintro (h | ⟨b', rfl | hb', rest⟩)
        · exact Or.inl (Or.inl h)
        · exact Or.inl (Or.inr rest)
        · exact Or.inr ⟨b', hb', rest⟩
  rw [main]
  simp

theorem setCell_proj_of (s s' : SState) (v : Nat) (w : lattice)
    (hu : s'.uses = s.uses) (hv : s'.visited = s.visited)
    (hc : s'.cells = s.cells) :
    (setCell s' v w).uses = s.uses ∧
    (setCell s' v w).visited = s.visited ∧
    ∀ x, x ≠ v → (setCell s' v w).cells x = s.cells x := by
  refine ⟨hu, hv, fun x hx => ?_⟩
  rw [cells_setCell]
  dsimp only
  rw [if_neg hx, hc]

theorem visitValueBody_proj (f : Fn) (s : SState) (v : Nat) :
    (visitValueBody f s v).uses = s.uses ∧
    (visitValueBody f s v).visited = s.visited ∧
    ∀ x, x ≠ v → (visitValueBody f s v).cells x = s.cells x := by
  unfold visitValueBody visitPhi
  dsimp only
  by_cases h1 : isConst (f.vals v).op
  · rw [if_pos h1]
    exact setCell_proj_of s s v _ rfl rfl rfl
  · rw [if_neg h1]
    by_cases h2 : (f.vals v).op = .Copy
    · rw [if_pos h2]
      exact setCell_proj_of s s v _ rfl rfl rfl
    · rw [if_neg h2]
      by_cases h3 : (f.vals v).op = .Phi
      · rw [if_pos h3]
        exact setCell_proj_of s s v _ rfl rfl rfl
      · rw [if_neg h3]
        by_cases h4 : isSupportedBinOp (f.vals v).op
        · rw [if_pos h4]
          by_cases h5 : (getLatticeCell s ((f.vals v).args.getD 0 0)).tag ≠ .constant ∨
              (getLatticeCell s ((f.vals v).args.getD 1 0)).tag ≠ .constant ∨
              isDivByZero f s (f.vals v).op
                (getLatticeCell s ((f.vals v).args.getD 1 0)).val
          · rw [if_pos h5]
            exact setCell_proj_of s s v _ rfl rfl rfl
          · rw [if_neg h5]
            by_cases h6 : (computeConstValue f s v
                ((getLatticeCell s ((f.vals v).args.getD 0 0)).val.getD 0)
                ((getLatticeCell s ((f.vals v).args.getD 1 0)).val.getD 0)).2.2 = true
            · rw [if_pos h6]
              exact setCell_proj_of s _ v _ rfl rfl rfl
            · rw [if_neg h6]
              exact setCell_proj_of s _ v _ rfl rfl rfl
        · rw [if_neg h4]
          exact setCell_proj_of s s v _ rfl rfl rfl

theorem foldl_propagate_visited (f : Fn) (bs : List Nat) :
    ∀ s : SState,
      (bs.foldl (fun st b => propagate f st b) s).visited = s.visited := by
  induction bs with
  | nil => exact fun _ => rfl
  | cons b t ih =>
    intro s
    rw [List.foldl_cons, ih]
    rfl

theorem foldl_propagate_uses (f : Fn) (bs : List Nat) :
    ∀ s : SState, (bs.foldl (fun st b => propagate f st b) s).uses = s.uses := by
  induction bs with
  | nil => exact fun _ => rfl
  | cons b t ih =>
    intro s
    rw [List.foldl_cons, ih]
    rfl

theorem addUses_visited (f : Fn) (s : SState) (v : Nat) :
    (addUses f s v).visited = s.visited := by
  unfold addUses
  dsimp only
  rw [foldl_propagate_visited]

theorem addUses_uses_eq (f : Fn) (s : SState) (v : Nat) :
    (addUses f s v).uses = s.uses ++ (defUseF f v).filter (fun u => u ≠ v) := by
  unfold addUses
  dsimp only
  rw [foldl_propagate_uses]

theorem visitValue_uses_mono (f : Fn) (s : SState) (u y : Nat)
    (hy : y ∈ s.uses) : y ∈ (visitValue f s u).uses := by
  unfold visitValue
  dsimp only
  split
  · rw [addUses_uses_eq, (visitValueBody_proj f s u).1]
    exact List.mem_append_left _ hy
  · rw [(visitValueBody_proj f s u).1]
    exact hy

theorem visitValueBody_phi (f : Fn) (s : SState) (u : Nat)
    (hop : (f.vals u).op = .Phi) :
    visitValueBody f s u = setCell s u (meet (phiArgCells f s u)) := by
  unfold visitValueBody visitPhi
  rw [if_neg (by rw [hop]; exact Bool.false_ne_true),
    if_neg (by rw [hop]; exact fun h => Op.noConfusion h), if_pos hop]

/-- `y` is a φ listed in some block of the function. -/
def listedPhi (f : Fn) (y : Nat) : Prop :=
  (∃ b ∈ f.blocks, y ∈ (f.blks b).values) ∧ (f.vals y).op = .Phi

/-- The cell of `y` equals the meet over its visited-edge argument cells. -/
def phiOK (f : Fn) (s : SState) (y : Nat) : Prop :=
  getLatticeCell s y = meet (phiArgCells f s y)

/-- The φ-consistency invariant, with an excuse list `R` of values still
scheduled to be visited in the current edge step: every listed φ is on the
value worklist, or in `R`, or consistent. -/
def PInvX (f : Fn) (s : SState) (R : List Nat) : Prop :=
  ∀ y, listedPhi f y → y ∈ s.uses ∨ y ∈ R ∨ phiOK f s y

/-- Installing the meet on a φ makes it consistent, even if the φ reads its
own cell through a self-referential argument. -/
theorem phiOK_after_visitPhi (f : Fn) (s : SState) (u : Nat) :
    phiOK f (setCell s u (meet (phiArgCells f s u))) u := by
  unfold phiOK
  have hstable := meet_stable (phiArgCells f s u)
    (phiArgCells f (setCell s u (meet (phiArgCells f s u))) u)
    (phiArgCells_setCell_self f s u (meet (phiArgCells f s u)))
  rw [hstable]
  rw [getLatticeCell, cells_setCell]
  simp

/-- φ-consistency only depends on the cells and the visited set. -/
theorem phiOK_congr (f : Fn) (s s' : SState) (y : Nat)
    (hvis : s'.visited = s.visited) (hc : ∀ x, s'.cells x = s.cells x)
    (h : phiOK f s y) : phiOK f s' y := by
  unfold phiOK
  rw [getLatticeCell, hc y,
    phiArgCells_congr f s s' y (fun e _ => by rw [hvis]) (fun i _ => hc _)]
  exact h

theorem argAt_mem (f : Fn) (y i : Nat) (hi : i < (f.vals y).args.length) :
    (f.vals y).args.getD i 0 ∈ (f.vals y).args := by
  rw [List.getD_eq_getElem?_getD, List.getElem?_eq_getElem hi]
  exact List.getElem_mem hi

/-- The master preservation step: one `visitValue` discharges the head of
the excuse list. -/
theorem PInvX_visitValue (f : Fn) (s : SState) (u : Nat) (R : List Nat)
    (h : PInvX f s (u :: R)) : PInvX f (visitValue f s u) R := by
  intro y hy
  obtain ⟨hproj_u, hproj_v, hproj_c⟩ := visitValueBody_proj f s u
  by_cases hyu : y = u
  · -- the visited value itself: it is a φ, and visitPhi makes it consistent
    subst hyu
    right
    right
    have hbody : visitValueBody f s y = setCell s y (meet (phiArgCells f s y)) :=
      visitValueBody_phi f s y hy.2
    have hok1 : phiOK f (visitValueBody f s y) y := by
      rw [hbody]
      exact phiOK_after_visitPhi f s y
    unfold visitValue
    dsimp only
    split
    · refine phiOK_congr f _ _ y (addUses_visited f _ y) ?_ hok1
      intro x
      rw [addUses_cells]
    · exact hok1
  · rcases h y hy with hu | hR | hok
    · exact Or.inl (visitValue_uses_mono f s u y hu)
    · rcases List.mem_cons.mp hR with rfl | hR'
      · exact absurd rfl hyu
      · exact Or.inr (Or.inl hR')
    · -- y was consistent; it stays consistent or is woken up
      unfold visitValue
      dsimp only
      split
      · rename_i hch
        by_cases harg : u ∈ (f.vals y).args
        · -- the changed value is an argument of y: y is enqueued
          left
          rw [addUses_uses_eq, hproj_u]
          apply List.mem_append_right
          apply List.mem_filter.mpr
          refine ⟨?_, by simp [hyu]⟩
          rcases hy.1 with ⟨b, hb, hyv⟩
          exact (mem_defUseF f u y).mpr ⟨b, hb, y, hyv, harg, rfl⟩
        · -- u is not an argument of y: consistency is untouched
          right
          right
          have hok1 : phiOK f (visitValueBody f s u) y := by
            unfold phiOK
            rw [getLatticeCell, hproj_c y hyu,
              phiArgCells_congr f s (visitValueBody f s u) y
                (fun e _ => by rw [hproj_v])
                (fun i hi => hproj_c _ (fun hh => harg (hh ▸ argAt_mem f y i hi)))]
            exact hok
          refine phiOK_congr f _ _ y (addUses_visited f _ u) ?_ hok1
          intro x
          rw [addUses_cells]
      · -- the cell did not change: every cell is pointwise unchanged
        rename_i hch
        right
        right
        rw [not_not] at hch
        refine phiOK_congr f s _ y hproj_v ?_ hok
        intro x
        by_cases hxu : x = u
        · rw [hxu]
          exact hch
        · exact hproj_c x hxu

theorem PInvX_congr (f : Fn) (s s' : SState) (R : List Nat)
    (hu : s'.uses = s.uses) (hvis : s'.visited = s.visited)
    (hc : ∀ x, s'.cells x = s.cells x)
    (h : PInvX f s R) : PInvX f s' R := by
  intro y hy
  rcases h y hy with h1 | h1 | h1
  · exact Or.inl (by rw [hu]; exact h1)
  · exact Or.inr (Or.inl h1)
  · exact Or.inr (Or.inr (phiOK_congr f s s' y hvis hc h1))

theorem PInvX_visitVals (f : Fn) (dv : Bool) :
    ∀ (vs : List Nat) (s : SState),
      PInvX f s vs → PInvX f (visitVals f s vs dv) [] := by
  intro vs
  induction vs with
  | nil => exact fun s h => h
  | cons vv t ih =>
    intro s h
    show PInvX f (visitVals f
      (if (f.vals vv).op = .Phi ∨ dv = false then visitValue f s vv else s)
      t dv) []
    by_cases hcond : (f.vals vv).op = .Phi ∨ dv = false
    · rw [if_pos hcond]
      exact ih _ (PInvX_visitValue f s vv t h)
    · rw [if_neg hcond]
      push_neg at hcond
      refine ih _ ?_
      intro y hy
      rcases h y hy with hu | hm | hok
      · exact Or.inl hu
      · rcases List.mem_cons.mp hm with rfl | hm'
        · exact absurd hy.2 hcond.1
        · exact Or.inr (Or.inl hm')
      · exact Or.inr (Or.inr hok)

/-- Marking an edge visited excuses exactly the φs of its destination
block (they are re-evaluated in the same step). -/
theorem PInvX_mark (f : Fn) (s : SState) (e : SEdge)
    (wf : ∀ b ∈ f.blocks, ∀ u ∈ (f.blks b).values, (f.vals u).block = b)
    (h : PInvX f s []) :
    PInvX f { s with visited := s.visited ++ [e] } ((f.blks e.2).values) := by
  intro y hy
  rcases h y hy with hu | hm | hok
  · exact Or.inl hu
  · cases hm
  · by_cases hblk : (f.vals y).block = e.2
    · right
      left
      rcases hy.1 with ⟨b, hb, hyv⟩
      have hbv := wf b hb y hyv
      rw [hbv] at hblk
      rw [← hblk]
      exact hyv
    · right
      right
      unfold phiOK at hok ⊢
      rw [getLatticeCell]
      show s.cells y = _
      rw [phiArgCells_congr f s { s with visited := s.visited ++ [e] } y ?_
        (fun i _ => rfl)]
      · exact hok
      · intro e' he'
        show e' ∈ s.visited ++ [e] ↔ e' ∈ s.visited
        rw [List.mem_append, List.mem_singleton]
        constructor
        · rintro (hh | rfl)
          · exact hh
          · exact absurd he'.symm hblk
        · exact Or.inl

theorem PInv_processEdge (f : Fn) (s : SState) (e : SEdge)
    (wf : ∀ b ∈ f.blocks, ∀ u ∈ (f.blks b).values, (f.vals u).block = b)
    (h : PInvX f s []) : PInvX f (processEdge f s e) [] := by
  unfold processEdge
  dsimp only
  split
  · exact h
  · have h1 := PInvX_mark f s e wf h
    split
    · exact PInvX_visitVals f _ _ _ h1
    · refine PInvX_congr f _ _ [] rfl rfl (fun x => rfl)
        (PInvX_visitVals f _ _ _ h1)

theorem PInv_step (f : Fn) (s : SState)
    (wf : ∀ b ∈ f.blocks, ∀ u ∈ (f.blks b).values, (f.vals u).block = b)
    (h : PInvX f s []) : PInvX f (step f s) [] := by
  unfold step
  rcases he : s.edges with _ | ⟨e, rest⟩
  · rcases hu : s.uses with _ | ⟨u, urest⟩
    · exact h
    · have h' : PInvX f { s with uses := urest } [u] := by
        intro y hy
        rcases h y hy with h1 | h1 | h1
        · rw [hu] at h1
          rcases List.mem_cons.mp h1 with rfl | h1'
          · exact Or.inr (Or.inl (List.mem_singleton_self y))
          · exact Or.inl h1'
        · cases h1
        · exact Or.inr (Or.inr h1)
      exact PInvX_visitValue f _ u [] h'
  · exact PInv_processEdge f _ e wf
      (PInvX_congr f s _ [] rfl rfl (fun x => rfl) h)

theorem PInv_run (f : Fn) (fuel : Nat)
    (wf : ∀ b ∈ f.blocks, ∀ u ∈ (f.blks b).values, (f.vals u).block = b) :
    ∀ s : SState, PInvX f s [] → PInvX f (run f fuel s) [] := by
  induction fuel with
  | zero => exact fun s h => h
  | succ n ih =>
    intro s h
    unfold run
    split
    · exact h
    · exact ih _ (PInv_step f s wf h)

theorem PInv_init (f : Fn) : PInvX f (initState f) [] := by
  intro y _
  right
  right
  unfold phiOK
  have hempty : phiArgCells f (initState f) y = [] := by
    unfold phiArgCells
    apply List.filterMap_eq_nil_iff.mpr
    intro i _
    rw [if_neg]
    intro hmem
    simp [initState] at hmem
  rw [hempty]
  rfl

/-- C2: when both worklists have drained, the cell of every listed φ equals
the meet over exactly the argument positions whose predecessor edge is
visited (unvisited positions are skipped, i.e. contribute the identity
Top).  In particular a φ whose included argument cells are all Top has cell
Top, one whose included cells are constants with one shared pointer (plus
Tops) has that constant cell, and one with two different constant pointers
among the included cells has cell Bottom. -/
theorem C2_phi_cell_is_meet (f : Fn) (fuel v : Nat)
    (wf : ∀ b ∈ f.blocks, ∀ u ∈ (f.blks b).values, (f.vals u).block = b)
    (_hedges : (run f fuel (initState f)).edges = [])
    (huses : (run f fuel (initState f)).uses = [])
    (hv : listedPhi f v) :
    getLatticeCell (run f fuel (initState f)) v =
      meet (phiArgCells f (run f fuel (initState f)) v) ∧
    (allTop (phiArgCells f (run f fuel (initState f)) v) →
      getLatticeCell (run f fuel (initState f)) v = latTop) ∧
    (∀ p : Option Nat,
      ¬ hasBottom (phiArgCells f (run f fuel (initState f)) v) →
      (∃ t ∈ phiArgCells f (run f fuel (initState f)) v, t.tag = .constant) →
      (∀ t ∈ phiArgCells f (run f fuel (initState f)) v,
        t.tag = .constant → t.val = p) →
      getLatticeCell (run f fuel (initState f)) v = ⟨.constant, p⟩) ∧
    (constClash (phiArgCells f (run f fuel (initState f)) v) →
      getLatticeCell (run f fuel (initState f)) v = latBot) := by
  have hmain : getLatticeCell (run f fuel (initState f)) v =
      meet (phiArgCells f (run f fuel (initState f)) v) := by
    rcases PInv_run f fuel wf (initState f) (PInv_init f) v hv with h1 | h1 | h1
    · rw [huses] at h1
      cases h1
    · cases h1
    · exact h1
  refine ⟨hmain, ?_, ?_, ?_⟩
  · intro hall
    rw [hmain]
    exact (meet_eq_top_iff _).mpr hall
  · intro p hnb hex hcst
    rw [hmain]
    exact (meet_eq_const_iff _ p).mpr ⟨hnb, hex, hcst⟩
  · intro hclash
    rw [hmain]
    exact (meet_eq_bottom_iff _).mpr (Or.inr hclash)

/-- Witness for C2 on the terminated run of `fn9`: the φ value 60. -/
theorem C2_phi_cell_is_meet_witness :
    getLatticeCell (run fn9 30 (initState fn9)) 60 =
      meet (phiArgCells fn9 (run fn9 30 (initState fn9)) 60) :=
  (C2_phi_cell_is_meet fn9 30 60 (by decide) (by decide) (by decide)
    ⟨⟨3, by decide, by decide⟩, by decide⟩).1
